import Mathlib

/-!
# IsoAlloc: zone geometry, pointer masking and the minimal log primitive

A shallow embedding of `include/iso_alloc_internal.h` (the macros and the
`iso_alloc_zone` / `iso_alloc_root` records) and of `src/iso_alloc_printf.c`
(`_fmt`, `_iso_alloc_printf`).

Conventions.
* `uint64_t`, `uint32_t`, `size_t` and pointers are natural numbers; where the
  C arithmetic can wrap the reduction `% 2 ^ 64` (or `% 2 ^ 32`) is written out.
* Bytes (`char`, `int8_t`) are natural numbers; a C string is the list of its
  bytes before the terminating NUL.
* Undefined behaviour of the C program (a store outside a buffer, a read past
  the terminator of a string, a missing variadic argument) is an explicit
  `Except.error`.
-/

namespace IsoAlloc

/-! ## Constants of `iso_alloc_internal.h` -/

def BITS_PER_CHUNK : Nat := 2
def BITS_PER_CHUNK_SHIFT : Nat := 1
def BITS_PER_BYTE : Nat := 8
def BITS_PER_BYTE_SHIFT : Nat := 3
def BITS_PER_QWORD : Nat := 64
def BITS_PER_QWORD_SHIFT : Nat := 6
def CANARY_SIZE : Nat := 8
def ALIGNMENT : Nat := 8
def MAX_ZONES : Nat := 4096
def ZONE_USER_SIZE : Nat := 8388608
def SMALL_SZ_MAX : Nat := 262144
def BIG_SZ_MAX : Nat := 4294967296
def ZONE_16 : Nat := 16
def ZONE_32 : Nat := 32
def ZONE_64 : Nat := 64
def ZONE_128 : Nat := 128
def ZONE_256 : Nat := 256
def ZONE_512 : Nat := 512
def ZONE_1024 : Nat := 1024
def ZONE_2048 : Nat := 2048
def ZONE_4096 : Nat := 4096
def ZONE_8192 : Nat := 8192
def MAX_DEFAULT_ZONE_SZ : Nat := ZONE_8192
def BIT_SLOT_CACHE_SZ : Nat := 128
def POISON_BYTE : Nat := 0xde
def CANARY_VALIDATE_MASK : Nat := 0xffffffffffffff00

/-- The width of `uint64_t`, `size_t` and of a pointer on the supported target. -/
def WORD : Nat := 2 ^ 64

/-! ## Records -/

/-- The record `iso_alloc_zone` (the build without `CPU_PIN`). -/
structure iso_alloc_zone where
  user_pages_start : Nat
  bitmap_start : Nat
  next_free_bit_slot : Int
  canary_secret : Nat
  pointer_mask : Nat
  chunk_size : Nat
  bitmap_size : Nat
  internally_managed : Bool
  is_full : Bool
  index : Nat
  free_bit_slot_cache_index : Nat
  free_bit_slot_cache_usable : Nat
  free_bit_slot_cache : List Nat
  deriving DecidableEq

/-- The record `iso_alloc_big_zone`; `next` holds the masked link. -/
structure iso_alloc_big_zone where
  canary_a : Nat
  free : Bool
  size : Nat
  user_pages_start : Nat
  next : Nat
  canary_b : Nat
  deriving DecidableEq

/-- The scalar fields of `iso_alloc_root` (the zone array is kept apart). -/
structure iso_alloc_root where
  zones_used : Nat
  system_page_size : Nat
  guard_below : Nat
  guard_above : Nat
  zone_handle_mask : Nat
  big_zone_next_mask : Nat
  big_zone_canary_secret : Nat
  big_zone_head : Nat
  deriving DecidableEq

/-! ## Macros -/

/-- `GET_CHUNK_COUNT(zone)`: `ZONE_USER_SIZE / zone->chunk_size`. -/
def GET_CHUNK_COUNT (zone : iso_alloc_zone) : Nat :=
  ZONE_USER_SIZE / zone.chunk_size

/-- `GET_MAX_BITMASK_INDEX(zone)`: `zone->bitmap_size >> 3`. -/
def GET_MAX_BITMASK_INDEX (zone : iso_alloc_zone) : Nat :=
  zone.bitmap_size >>> 3

/-- `POINTER_FROM_BITSLOT(zone, bit_slot)`:
`(void *) zone->user_pages_start + ((bit_slot / BITS_PER_CHUNK) * zone->chunk_size)`.
The product is a `uint64_t` product and the sum is an address, both reduced
modulo `2 ^ 64`. -/
def POINTER_FROM_BITSLOT (zone : iso_alloc_zone) (bit_slot : Nat) : Nat :=
  (zone.user_pages_start + ((bit_slot / BITS_PER_CHUNK) * zone.chunk_size) % WORD) % WORD

/-- Modelled from the spec: the free-side alignment check of
`iso_free_chunk_from_zone`, whose body is not among the sources, tests
`(p - user_pages_start) mod chunk_size == 0`; this is the offset
`p - user_pages_start` it reduces, as a `uint64_t` difference. -/
def chunk_offset (zone : iso_alloc_zone) (p : Nat) : Nat :=
  (p + WORD - zone.user_pages_start % WORD) % WORD

/-- `MASK_BITMAP_PTRS(zone)`. -/
def MASK_BITMAP_PTRS (zone : iso_alloc_zone) : iso_alloc_zone :=
  { zone with bitmap_start := zone.bitmap_start ^^^ zone.pointer_mask }

/-- `MASK_USER_PTRS(zone)`. -/
def MASK_USER_PTRS (zone : iso_alloc_zone) : iso_alloc_zone :=
  { zone with user_pages_start := zone.user_pages_start ^^^ zone.pointer_mask }

/-- `MASK_ZONE_PTRS(zone)`: `MASK_BITMAP_PTRS(zone); MASK_USER_PTRS(zone);`. -/
def MASK_ZONE_PTRS (zone : iso_alloc_zone) : iso_alloc_zone :=
  MASK_USER_PTRS (MASK_BITMAP_PTRS zone)

/-- `UNMASK_ZONE_PTRS(zone)`: `MASK_ZONE_PTRS(zone);`. -/
def UNMASK_ZONE_PTRS (zone : iso_alloc_zone) : iso_alloc_zone :=
  MASK_ZONE_PTRS zone

/-- `UNMASK_BIG_ZONE_NEXT(bnp)`:
`(uintptr_t) _root->big_zone_next_mask ^ (uintptr_t) bnp`. -/
def UNMASK_BIG_ZONE_NEXT (root : iso_alloc_root) (bnp : Nat) : Nat :=
  root.big_zone_next_mask ^^^ bnp

/-- `MASK_BIG_ZONE_NEXT(bnp)`: `UNMASK_BIG_ZONE_NEXT(bnp)`. -/
def MASK_BIG_ZONE_NEXT (root : iso_alloc_root) (bnp : Nat) : Nat :=
  UNMASK_BIG_ZONE_NEXT root bnp

/-- `ALIGN_SZ_UP(n)`: `(((n) + (ALIGNMENT) - 1) / (ALIGNMENT)) * (ALIGNMENT)` on
`size_t`. -/
def ALIGN_SZ_UP (n : Nat) : Nat :=
  ((((n + ALIGNMENT) % WORD + WORD - 1) % WORD / ALIGNMENT) * ALIGNMENT) % WORD

/-- The table `default_zones` under `SMALL_MEM_STARTUP` (`true`) and in the
default profile (`false`). -/
def default_zones (small_mem_startup : Bool) : List Nat :=
  if small_mem_startup then [ZONE_64, ZONE_256, ZONE_512, ZONE_1024]
  else [ZONE_16, ZONE_32, ZONE_64, ZONE_128, ZONE_256, ZONE_512,
        ZONE_1024, ZONE_2048, ZONE_4096, ZONE_8192]

/-- `SMALLEST_ZONE` in the two startup profiles. -/
def SMALLEST_ZONE (small_mem_startup : Bool) : Nat :=
  if small_mem_startup then ZONE_64 else ZONE_16

/-- A zone record with the given user mapping and chunk size, every other
field zero, empty or false; the concrete zone of the examples below. -/
def sample_zone (user_pages_start chunk_size : Nat) : iso_alloc_zone :=
  { user_pages_start := user_pages_start, bitmap_start := 0,
    next_free_bit_slot := 0, canary_secret := 0, pointer_mask := 0,
    chunk_size := chunk_size, bitmap_size := 0, internally_managed := true,
    is_full := false, index := 0, free_bit_slot_cache_index := 0,
    free_bit_slot_cache_usable := 0, free_bit_slot_cache := [] }

/-! ## The log primitive of `iso_alloc_printf.c` -/

/-- The ways the C code of the log primitive can leave defined behaviour. -/
inductive Fault where
  | read_past_terminator
  | store_out_of_bounds
  | fmt_buf_underflow
  | asc_hex_out_of_bounds
  | division_by_zero
  | bad_va_arg
  | out_of_fuel
  deriving DecidableEq, Repr

/-- The bytes of a string literal, without the terminating NUL. -/
def bytes (s : String) : List Nat := s.toList.map Char.toNat

/-- `static int8_t asc_hex[] = "0123456789abcdef";` (17 bytes with the NUL). -/
def asc_hex : List Nat := bytes "0123456789abcdef" ++ [0]

/-- `sizeof(fmt_buf)`. -/
def FMT_BUF_SIZE : Nat := 64

/-- `sizeof(_out)`. -/
def OUT_SIZE : Nat := 65535

/-- The C string that starts at index `ptr` of a buffer: the bytes before the
first NUL. -/
def c_string (buf : List Nat) (ptr : Nat) : List Nat :=
  (buf.drop ptr).takeWhile (fun c => c != 0)

/-- The locals of `_fmt` after its loop. -/
structure fmt_state where
  fmt_buf : List Nat
  ptr : Nat
  count : Nat
  deriving DecidableEq, Repr

/-- The loop `while(n != 0) { *--ptr = asc_hex[n % base]; n /= base; count++; }`
of `_fmt`, by recursion on the index `ptr` into `fmt_buf`: a store needs
`ptr > 0`, and the pre-decrement at `ptr = 0` would store below `fmt_buf[0]`. -/
def _fmt_loop (base : Nat) : Nat → Nat → List Nat → Nat → Except Fault fmt_state
  | ptr, n, fmt_buf, count =>
    if n ≠ 0 then
      if base = 0 then .error .division_by_zero
      else
        match asc_hex.get? (n % base) with
        | none => .error .asc_hex_out_of_bounds
        | some c =>
          match ptr with
          | 0 => .error .fmt_buf_underflow
          | ptr' + 1 =>
            _fmt_loop base ptr' (n / base) (fmt_buf.set ptr' c) ((count + 1) % 2 ^ 32)
    else .ok { fmt_buf := fmt_buf, ptr := ptr, count := count }

/-- `_fmt(n, base)`: the C string at the returned pointer, which points into
`fmt_buf`, or at the literal `"0"` when no digit was produced. -/
def _fmt (n base : Nat) : Except Fault (List Nat) :=
  match _fmt_loop base (FMT_BUF_SIZE - 1) n (List.replicate FMT_BUF_SIZE 0) 0 with
  | .error e => .error e
  | .ok st => if st.count = 0 then .ok (bytes "0") else .ok (c_string st.fmt_buf st.ptr)


/-- One variadic argument, by the C type it was passed with. -/
inductive Arg where
  | int32 (v : Int)
  | int64 (v : Int)
  | str (s : Option (List Nat))
  deriving DecidableEq, Repr

/-- The locals of `_iso_alloc_printf` that change in its loop: `idx` (the
format from `idx` on), the cursor `p` as an index into `_out`, the buffer
`_out` and the unread arguments. -/
structure printf_state where
  idx : List Nat
  p : Nat
  out : List Nat
  arg : List Arg
  deriving DecidableEq, Repr

/-- The store `*p = c` into `_out`. -/
def store (out : List Nat) (p c : Nat) : Except Fault (List Nat) :=
  if p < OUT_SIZE then .ok (out.set p c) else .error .store_out_of_bounds

/-- The call `strncpy(p, s, strlen(s))`: the bytes of `s`, no terminator. -/
def strncpy (out : List Nat) (p : Nat) : List Nat → Except Fault (List Nat)
  | [] => .ok out
  | c :: s =>
    match store out p c with
    | .error e => .error e
    | .ok out => strncpy out (p + 1) s

/-- The inner `while(*idx != '%' && *idx != '\0')` loop. -/
def copy_literal : List Nat → Nat → List Nat → Except Fault (List Nat × Nat × List Nat)
  | [], p, out => .ok ([], p, out)
  | c :: idx, p, out =>
    if c ≠ '%'.toNat ∧ c ≠ 0 then
      match store out p c with
      | .error e => .error e
      | .ok out =>
        if c = '\n'.toNat then .ok (c :: idx, p + 1, out)
        else copy_literal idx (p + 1) out
    else .ok (c :: idx, p, out)

/-- The two statements `strncpy(p, s, strlen(s)); p += strlen(s);` that end
every conversion, followed by the `idx++` of the `for`. -/
def emit (s idx : List Nat) (p : Nat) (out : List Nat) (arg : List Arg) :
    Except Fault (Option printf_state) :=
  match strncpy out p s with
  | .error e => .error e
  | .ok out => .ok (some { idx := idx, p := p + s.length, out := out, arg := arg })

/-- The statements `s = (char *) _fmt(n, base); strncpy(p, s, strlen(s));
p += strlen(s);` of the numeric conversions. -/
def emit_fmt (n base : Nat) (idx : List Nat) (p : Nat) (out : List Nat) (arg : List Arg) :
    Except Fault (Option printf_state) :=
  match _fmt n base with
  | .error e => .error e
  | .ok s => emit s idx p out arg

/-- The conversion part of the loop body, entered with `*idx = c` not NUL;
`idx` is the format after `c`. It ends with the `idx++` of the `for`. The
result `none` is the `break` of the `%s` branch. The locals `i` and `j` are
`uint64_t` and `uint32_t`, so the tests `0 > i` and `0 > j` compare unsigned
values. -/
def convert (c : Nat) (idx : List Nat) (p : Nat) (out : List Nat) (arg : List Arg) :
    Except Fault (Option printf_state) :=
  if c = 'x'.toNat ∨ c = 'p'.toNat then
    match arg with
    | Arg.int64 v :: arg =>
      let i := (v % 2 ^ 64).toNat
      emit_fmt i 16 idx p out arg
    | _ => .error .bad_va_arg
  else if c = 'd'.toNat ∨ c = 'u'.toNat then
    match arg with
    | Arg.int32 v :: arg =>
      let j := (v % 2 ^ 32).toNat
      if 0 > j then
        match store out p '-'.toNat with
        | .error e => .error e
        | .ok out => emit_fmt ((2 ^ 32 - j) % 2 ^ 32) 10 idx (p + 1) out arg
      else emit_fmt j 10 idx p out arg
    | _ => .error .bad_va_arg
  else if c = 'l'.toNat then
    let idx := if idx.headD 0 = 'd'.toNat ∨ idx.headD 0 = 'u'.toNat then idx.tail else idx
    match arg with
    | Arg.int64 v :: arg =>
      let i := (v % 2 ^ 64).toNat
      if 0 > i then
        match store out p '-'.toNat with
        | .error e => .error e
        | .ok out => emit_fmt ((2 ^ 64 - i) % 2 ^ 64) 10 idx (p + 1) out arg
      else emit_fmt i 10 idx p out arg
    | _ => .error .bad_va_arg
  else if c = 's'.toNat then
    match arg with
    | Arg.str none :: _ => .ok none
    | Arg.str (some s) :: arg => emit s idx p out arg
    | _ => .error .bad_va_arg
  else .ok (some { idx := idx, p := p, out := out, arg := arg })

/-- The `for` loop of `_iso_alloc_printf`; the result is `_out` when the loop
is left. Every round that goes on consumes a byte of the format, so a fuel of
one more than its length is never used up. -/
def printf_loop : Nat → printf_state → Except Fault (List Nat)
  | 0, _ => .error .out_of_fuel
  | fuel + 1, st =>
    if st.idx.headD 0 = 0 then .ok st.out
    else if st.p ≥ OUT_SIZE then .ok st.out
    else
      match copy_literal st.idx st.p st.out with
      | .error e => .error e
      | .ok (idx, p, out) =>
        match idx with
        | [] => .error .read_past_terminator
        | _ :: idx =>
          let p := p + 1
          match idx with
          | [] => .ok out
          | c :: idx =>
            if c = 0 then .ok out
            else
              match convert c idx p out st.arg with
              | .error e => .error e
              | .ok none => .ok out
              | .ok (some st) => printf_loop fuel st

/-- `_iso_alloc_printf(f, ...)`: the bytes handed to `write`, none when `f` is
`NULL`. -/
def _iso_alloc_printf (f : Option (List Nat)) (arg : List Arg) : Except Fault (List Nat) :=
  match f with
  | none => .ok []
  | some f =>
    printf_loop (f.length + 1)
      { idx := f, p := 0, out := List.replicate OUT_SIZE 0, arg := arg }

/-- The first `n` bytes written, when the call is defined. -/
def written (n : Nat) (r : Except Fault (List Nat)) : Option (List Nat) :=
  match r with
  | .ok out => some (out.take n)
  | .error _ => none

/-! ## Bit primitives of the bitmap -/

/-- `WHICH_BIT(bit_slot)`: `(bit_slot & (BITS_PER_QWORD - 1))`. -/
def WHICH_BIT (bit_slot : Nat) : Nat :=
  bit_slot &&& (BITS_PER_QWORD - 1)

/-- `GET_BIT(n, k)`: `(n >> k) & 1UL`. -/
def GET_BIT (n k : Nat) : Nat :=
  (n >>> k) &&& 1

/-- `SET_BIT(n, k)`: the value of `n` after `n |= 1UL << k;`, the shift being a
64-bit shift. -/
def SET_BIT (n k : Nat) : Nat :=
  n ||| ((1 <<< k) % WORD)

/-- `UNSET_BIT(n, k)`: the value of `n` after `n &= ~(1UL << k);`, shift and
complement being 64-bit operations. -/
def UNSET_BIT (n k : Nat) : Nat :=
  n &&& (WORD - 1 - (1 <<< k) % WORD)

/-! ## Reading digits back -/

/-- The character `asc_hex[d]` of the digit `d`. -/
def digit_char (d : Nat) : Nat :=
  asc_hex.getD d 0

/-- The digit a character of `asc_hex` stands for: its index in `asc_hex`. -/
def digit_value (c : Nat) : Nat :=
  asc_hex.indexOf c

/-- The number a string of `asc_hex` digits denotes in a base, most
significant digit first. -/
def string_value (base : Nat) (s : List Nat) : Nat :=
  s.foldl (fun acc c => acc * base + digit_value c) 0

/-! ## Rounding down -/

/-- `ALIGN_SZ_DOWN(n)`:
`((((n) + (ALIGNMENT) - 1) / (ALIGNMENT)) * (ALIGNMENT)) - ALIGNMENT` on `size_t`. -/
def ALIGN_SZ_DOWN (n : Nat) : Nat :=
  (((((n + ALIGNMENT) % WORD + WORD - 1) % WORD / ALIGNMENT) * ALIGNMENT) % WORD
    + WORD - ALIGNMENT) % WORD

/-- `ROUND_UP_PAGE(n)`:
`((((n) + (g_page_size) - 1) / (g_page_size)) * (g_page_size))` on `size_t`, the
global `g_page_size` being a parameter. -/
def ROUND_UP_PAGE (g_page_size n : Nat) : Nat :=
  ((((n + g_page_size) % WORD + WORD - 1) % WORD / g_page_size) * g_page_size) % WORD

/-- `ROUND_DOWN_PAGE(n)`: `(ROUND_UP_PAGE(n) - g_page_size)` on `size_t`. -/
def ROUND_DOWN_PAGE (g_page_size n : Nat) : Nat :=
  (ROUND_UP_PAGE g_page_size n + WORD - g_page_size) % WORD

/-! ## Auxiliary facts -/

/-- A chunk whose index is below the chunk count ends inside the user region. -/
theorem chunk_end_le_zone_size (cs i : Nat) (hi : i < ZONE_USER_SIZE / cs) :
    i * cs + cs ≤ ZONE_USER_SIZE := by
  have h1 : (i + 1) * cs ≤ (ZONE_USER_SIZE / cs) * cs := Nat.mul_le_mul_right cs hi
  have h2 : (ZONE_USER_SIZE / cs) * cs ≤ ZONE_USER_SIZE := Nat.div_mul_le_self _ _
  have h3 : (i + 1) * cs = i * cs + cs := by ring
  omega

/-- Chunks of distinct indices start at least one chunk size apart. -/
theorem chunk_starts_apart (cs i j : Nat) (hij : i < j) : i * cs + cs ≤ j * cs := by
  have h1 : (i + 1) * cs ≤ j * cs := Nat.mul_le_mul_right cs hij
  have h3 : (i + 1) * cs = i * cs + cs := by ring
  omega

/-- On a 64-bit value, `& CANARY_VALIDATE_MASK` clears the low byte and keeps
the rest. -/
theorem and_canary_validate_mask (x : Nat) (hx : x < WORD) :
    x &&& CANARY_VALIDATE_MASK = x / 256 * 256 := by
  unfold WORD at hx
  unfold CANARY_VALIDATE_MASK
  have hM : (0xffffffffffffff00 : Nat) = 2 ^ 8 * (2 ^ 56 - 1) := by norm_num
  have h256 : x / 256 * 256 = 2 ^ 8 * (x / 2 ^ 8) := by norm_num [Nat.mul_comm]
  rw [hM, h256]
  apply Nat.eq_of_testBit_eq
  intro i
  rw [Nat.testBit_and, Nat.testBit_mul_pow_two, Nat.testBit_mul_pow_two,
    Nat.testBit_two_pow_sub_one, ← Nat.shiftRight_eq_div_pow, Nat.testBit_shiftRight]
  by_cases h8 : 8 ≤ i
  · have e : 8 + (i - 8) = i := by omega
    by_cases h64 : i < 64
    · have h56 : i - 8 < 56 := by omega
      simp [h8, h56, e]
    · have hlt : x < 2 ^ i :=
        lt_of_lt_of_le hx (Nat.pow_le_pow_right (by norm_num) (by omega))
      simp [Nat.testBit_lt_two_pow hlt, e]
  · simp [h8]

/-- In a strictly increasing list the first element that is at least `s` is
the least such element. -/
theorem first_fit_is_least (l : List Nat) (s z : Nat) (hs : l.Pairwise (· < ·))
    (hf : l.find? (fun e => decide (s ≤ e)) = some z) :
    z ∈ l ∧ s ≤ z ∧ ∀ e ∈ l, s ≤ e → z ≤ e := by
  induction l with
  | nil => simp at hf
  | cons a t ih =>
    rw [List.pairwise_cons] at hs
    by_cases ha : s ≤ a
    · have hz : a = z := by simpa [List.find?, ha] using hf
      subst hz
      refine ⟨List.mem_cons_self _ _, ha, ?_⟩
      intro e he _
      rcases List.mem_cons.1 he with rfl | het
      · exact le_rfl
      · exact le_of_lt (hs.1 e het)
    · have hf2 : t.find? (fun e => decide (s ≤ e)) = some z := by
        simpa [List.find?, ha] using hf
      obtain ⟨hm, hsz, hmin⟩ := ih hs.2 hf2
      refine ⟨List.mem_cons_of_mem _ hm, hsz, ?_⟩
      intro e he hse
      rcases List.mem_cons.1 he with rfl | het
      · exact absurd hse ha
      · exact hmin e het hse

/-- A first-fit scan finds an element as soon as one fits. -/
theorem first_fit_exists (l : List Nat) (s : Nat) (h : ∃ e ∈ l, s ≤ e) :
    ∃ z, l.find? (fun e => decide (s ≤ e)) = some z := by
  obtain ⟨e, he, hse⟩ := h
  cases hfind : l.find? (fun e => decide (s ≤ e)) with
  | some z => exact ⟨z, rfl⟩
  | none =>
    rw [List.find?_eq_none] at hfind
    exact absurd (by simpa using hse) (hfind e he)

/-! ## The loops of the log primitive end -/

/-- A store fails only by leaving `_out`. -/
theorem store_fault (out : List Nat) (p c : Nat) (e : Fault)
    (h : store out p c = .error e) : e = .store_out_of_bounds := by
  unfold store at h
  split at h
  · exact absurd h (by simp)
  · simpa using h.symm

/-- A `strncpy` fails only by leaving `_out`. -/
theorem strncpy_fault (s : List Nat) :
    ∀ (out : List Nat) (p : Nat) (e : Fault),
      strncpy out p s = .error e → e = .store_out_of_bounds := by
  induction s with
  | nil => intro out p e h; simp [strncpy] at h
  | cons c t ih =>
    intro out p e h
    unfold strncpy at h
    split at h
    · rename_i e' hst
      have := store_fault _ _ _ _ hst
      simp only [Except.error.injEq] at h
      rw [← h]; exact this
    · exact ih _ _ _ h

/-- The literal copy fails only by leaving `_out`. -/
theorem copy_literal_fault (idx : List Nat) :
    ∀ (p : Nat) (out : List Nat) (e : Fault),
      copy_literal idx p out = .error e → e = .store_out_of_bounds := by
  induction idx with
  | nil => intro p out e h; simp [copy_literal] at h
  | cons c t ih =>
    intro p out e h
    unfold copy_literal at h
    split at h
    · split at h
      · rename_i e' hst
        have := store_fault _ _ _ _ hst
        simp only [Except.error.injEq] at h
        rw [← h]; exact this
      · split at h
        · simp at h
        · exact ih _ _ _ h
    · simp at h

/-- The literal copy leaves `idx` inside the format. -/
theorem copy_literal_length (idx : List Nat) :
    ∀ (p : Nat) (out idx' : List Nat) (p' : Nat) (out' : List Nat),
      copy_literal idx p out = .ok (idx', p', out') → idx'.length ≤ idx.length := by
  induction idx with
  | nil =>
    intro p out idx' p' out' h
    simp only [copy_literal, Except.ok.injEq, Prod.mk.injEq] at h
    rw [← h.1]
  | cons c t ih =>
    intro p out idx' p' out' h
    unfold copy_literal at h
    split at h
    · split at h
      · exact absurd h (by simp)
      · split at h
        · simp only [Except.ok.injEq, Prod.mk.injEq] at h
          rw [← h.1]
        · have := ih _ _ _ _ _ h
          simp only [List.length_cons]
          omega
    · simp only [Except.ok.injEq, Prod.mk.injEq] at h
      rw [← h.1]

/-- The digit loop of `_fmt` never runs out of fuel: it has none. -/
theorem fmt_loop_fault (base ptr : Nat) :
    ∀ (n : Nat) (fmt_buf : List Nat) (count : Nat) (e : Fault),
      _fmt_loop base ptr n fmt_buf count = .error e → e ≠ .out_of_fuel := by
  induction ptr with
  | zero =>
    intro n fmt_buf count e h
    unfold _fmt_loop at h
    split at h
    · split at h
      · simp only [Except.error.injEq] at h; rw [← h]; simp
      · split at h
        · simp only [Except.error.injEq] at h; rw [← h]; simp
        · simp only [Except.error.injEq] at h; rw [← h]; simp
    · simp at h
  | succ ptr ih =>
    intro n fmt_buf count e h
    unfold _fmt_loop at h
    split at h
    · split at h
      · simp only [Except.error.injEq] at h; rw [← h]; simp
      · split at h
        · simp only [Except.error.injEq] at h; rw [← h]; simp
        · exact ih _ _ _ _ h
    · simp at h

/-- A fault of `_fmt` is a fault of its digit loop. -/
theorem fmt_fault (n base : Nat) (e : Fault) (h : _fmt n base = .error e) :
    e ≠ .out_of_fuel := by
  unfold _fmt at h
  split at h
  · rename_i e' hl
    simp only [Except.error.injEq] at h
    rw [← h]; exact fmt_loop_fault _ _ _ _ _ _ hl
  · split at h <;> simp at h

/-- The end of a conversion leaves `idx` where it was given. -/
theorem emit_idx (s idx : List Nat) (p : Nat) (out : List Nat) (arg : List Arg)
    (st : printf_state) (h : emit s idx p out arg = .ok (some st)) : st.idx = idx := by
  unfold emit at h
  split at h
  · simp at h
  · simp only [Except.ok.injEq, Option.some.injEq] at h
    rw [← h]

/-- The end of a conversion fails only by leaving `_out`. -/
theorem emit_fault (s idx : List Nat) (p : Nat) (out : List Nat) (arg : List Arg)
    (e : Fault) (h : emit s idx p out arg = .error e) : e ≠ .out_of_fuel := by
  unfold emit at h
  split at h
  · rename_i e' hs
    simp only [Except.error.injEq] at h
    rw [← h, strncpy_fault _ _ _ _ hs]; simp
  · simp at h

/-- A numeric conversion leaves `idx` where it was given. -/
theorem emit_fmt_idx (n base : Nat) (idx : List Nat) (p : Nat) (out : List Nat)
    (arg : List Arg) (st : printf_state)
    (h : emit_fmt n base idx p out arg = .ok (some st)) : st.idx = idx := by
  unfold emit_fmt at h
  split at h
  · simp at h
  · exact emit_idx _ _ _ _ _ _ h

/-- A numeric conversion never runs out of fuel. -/
theorem emit_fmt_fault (n base : Nat) (idx : List Nat) (p : Nat) (out : List Nat)
    (arg : List Arg) (e : Fault)
    (h : emit_fmt n base idx p out arg = .error e) : e ≠ .out_of_fuel := by
  unfold emit_fmt at h
  split at h
  · rename_i e' hf
    simp only [Except.error.injEq] at h
    rw [← h]; exact fmt_fault _ _ _ hf
  · exact emit_fault _ _ _ _ _ _ h

/-- A conversion leaves `idx` inside the format. -/
theorem convert_length (c : Nat) (idx : List Nat) (p : Nat) (out : List Nat)
    (arg : List Arg) (st : printf_state)
    (h : convert c idx p out arg = .ok (some st)) : st.idx.length ≤ idx.length := by
  have htail : (if idx.headD 0 = 'd'.toNat ∨ idx.headD 0 = 'u'.toNat then idx.tail
      else idx).length ≤ idx.length := by
    split
    · simp
    · exact le_rfl
  unfold convert at h
  split at h
  · split at h
    · rw [emit_fmt_idx _ _ _ _ _ _ _ h]
    · simp at h
  · split at h
    · split at h
      · dsimp only at h
        split at h
        · split at h
          · simp at h
          · rw [emit_fmt_idx _ _ _ _ _ _ _ h]
        · rw [emit_fmt_idx _ _ _ _ _ _ _ h]
      · simp at h
    · split at h
      · dsimp only at h
        split at h
        · split at h
          · split at h
            · simp at h
            · rw [emit_fmt_idx _ _ _ _ _ _ _ h]; exact htail
          · rw [emit_fmt_idx _ _ _ _ _ _ _ h]; exact htail
        · simp at h
      · split at h
        · split at h
          · simp at h
          · rw [emit_idx _ _ _ _ _ _ h]
          · simp at h
        · simp only [Except.ok.injEq, Option.some.injEq] at h
          rw [← h]

/-- A conversion never runs out of fuel. -/
theorem convert_fault (c : Nat) (idx : List Nat) (p : Nat) (out : List Nat)
    (arg : List Arg) (e : Fault)
    (h : convert c idx p out arg = .error e) : e ≠ .out_of_fuel := by
  unfold convert at h
  split at h
  · split at h
    · exact emit_fmt_fault _ _ _ _ _ _ _ h
    · simp only [Except.error.injEq] at h; rw [← h]; simp
  · split at h
    · split at h
      · dsimp only at h
        split at h
        · split at h
          · rename_i e' hs
            simp only [Except.error.injEq] at h
            rw [← h, store_fault _ _ _ _ hs]; simp
          · exact emit_fmt_fault _ _ _ _ _ _ _ h
        · exact emit_fmt_fault _ _ _ _ _ _ _ h
      · simp only [Except.error.injEq] at h; rw [← h]; simp
    · split at h
      · dsimp only at h
        split at h
        · split at h
          · split at h
            · rename_i e' hs
              simp only [Except.error.injEq] at h
              rw [← h, store_fault _ _ _ _ hs]; simp
            · exact emit_fmt_fault _ _ _ _ _ _ _ h
          · exact emit_fmt_fault _ _ _ _ _ _ _ h
        · simp only [Except.error.injEq] at h; rw [← h]; simp
      · split at h
        · split at h
          · simp at h
          · exact emit_fault _ _ _ _ _ _ h
          · simp only [Except.error.injEq] at h; rw [← h]; simp
        · simp at h

/-- The `for` loop of `_iso_alloc_printf` ends: with more fuel than the format
from `idx` on has bytes, the fuel is never used up. -/
theorem printf_loop_fuel (fuel : Nat) :
    ∀ st : printf_state, st.idx.length < fuel →
      printf_loop fuel st ≠ .error .out_of_fuel := by
  induction fuel with
  | zero => intro st h; omega
  | succ fuel ih =>
    intro st hlen
    unfold printf_loop
    split
    · simp
    · split
      · simp
      · split
        · rename_i e hcl
          rw [copy_literal_fault _ _ _ _ hcl]; simp
        · rename_i idx p out hcl
          have h1 := copy_literal_length _ _ _ _ _ _ hcl
          split
          · simp
          · dsimp only
            split
            · simp
            · split
              · simp
              · split
                · rename_i e hconv
                  have := convert_fault _ _ _ _ _ _ hconv
                  simpa using this
                · simp
                · rename_i st' hconv
                  have h2 := convert_length _ _ _ _ _ _ hconv
                  apply ih
                  simp only [List.length_cons] at h1
                  omega

/-- The call `_iso_alloc_printf(f, ...)` never uses up the fuel of its loop. -/
theorem iso_alloc_printf_ends (f : Option (List Nat)) (arg : List Arg) :
    _iso_alloc_printf f arg ≠ .error .out_of_fuel := by
  unfold _iso_alloc_printf
  split
  · simp
  · exact printf_loop_fuel _ _ (Nat.lt_succ_self _)

/-! ## Zone geometry -/

/-- C1: for a zone with chunk size at least one whose user mapping lies in the
64-bit address space, and a bit slot whose chunk index is below the chunk
count, `POINTER_FROM_BITSLOT` is `user_pages_start + (b / 2) * chunk_size`, its
offset from `user_pages_start` is a multiple of the chunk size, and the chunk
`[ptr, ptr + chunk_size)` lies inside
`[user_pages_start, user_pages_start + ZONE_USER_SIZE)`. -/
theorem pointer_from_bitslot_in_zone (zone : iso_alloc_zone) (b : Nat)
    (hcs : 1 ≤ zone.chunk_size)
    (hb : b / BITS_PER_CHUNK < GET_CHUNK_COUNT zone)
    (hmap : zone.user_pages_start + ZONE_USER_SIZE ≤ WORD) :
    POINTER_FROM_BITSLOT zone b = zone.user_pages_start + (b / 2) * zone.chunk_size ∧
    chunk_offset zone (POINTER_FROM_BITSLOT zone b) % zone.chunk_size = 0 ∧
    zone.user_pages_start ≤ POINTER_FROM_BITSLOT zone b ∧
    POINTER_FROM_BITSLOT zone b < zone.user_pages_start + ZONE_USER_SIZE ∧
    POINTER_FROM_BITSLOT zone b + zone.chunk_size
      ≤ zone.user_pages_start + ZONE_USER_SIZE := by
  have hend := chunk_end_le_zone_size zone.chunk_size (b / BITS_PER_CHUNK) hb
  simp only [BITS_PER_CHUNK] at hend
  have hptr : POINTER_FROM_BITSLOT zone b
      = zone.user_pages_start + (b / 2) * zone.chunk_size := by
    simp only [POINTER_FROM_BITSLOT, BITS_PER_CHUNK, WORD, ZONE_USER_SIZE] at *
    omega
  have hoff : chunk_offset zone (POINTER_FROM_BITSLOT zone b)
      = (b / 2) * zone.chunk_size := by
    rw [hptr]
    simp only [chunk_offset, WORD, ZONE_USER_SIZE] at *
    omega
  refine ⟨hptr, ?_, ?_, ?_, ?_⟩
  · rw [hoff]; exact Nat.mul_mod_left _ _
  · rw [hptr]; omega
  · rw [hptr]; omega
  · rw [hptr]; omega

/-- Witness for C1: a 16-byte zone mapped at `0x7f0000000000`, bit slot 6
(chunk 3). -/
theorem pointer_from_bitslot_in_zone_witness :
    POINTER_FROM_BITSLOT (sample_zone 0x7f0000000000 16) 6
      = (sample_zone 0x7f0000000000 16).user_pages_start
        + (6 / 2) * (sample_zone 0x7f0000000000 16).chunk_size ∧
    chunk_offset (sample_zone 0x7f0000000000 16)
        (POINTER_FROM_BITSLOT (sample_zone 0x7f0000000000 16) 6)
      % (sample_zone 0x7f0000000000 16).chunk_size = 0 ∧
    (sample_zone 0x7f0000000000 16).user_pages_start
      ≤ POINTER_FROM_BITSLOT (sample_zone 0x7f0000000000 16) 6 ∧
    POINTER_FROM_BITSLOT (sample_zone 0x7f0000000000 16) 6
      < (sample_zone 0x7f0000000000 16).user_pages_start + ZONE_USER_SIZE ∧
    POINTER_FROM_BITSLOT (sample_zone 0x7f0000000000 16) 6
        + (sample_zone 0x7f0000000000 16).chunk_size
      ≤ (sample_zone 0x7f0000000000 16).user_pages_start + ZONE_USER_SIZE :=
  pointer_from_bitslot_in_zone (sample_zone 0x7f0000000000 16) 6
    (by decide) (by decide) (by decide)

/-- C2: chunks of one zone never overlap. Two bit slots with distinct chunk
indices below the chunk count give addresses at least one chunk size apart, so
the two chunks are disjoint; and the two bits `b`, `b + 1` of an even bit slot
`b` give the same address. -/
theorem chunks_do_not_overlap (zone : iso_alloc_zone) :
    (∀ b1 b2 : Nat, 1 ≤ zone.chunk_size →
      b1 / BITS_PER_CHUNK < GET_CHUNK_COUNT zone →
      b2 / BITS_PER_CHUNK < GET_CHUNK_COUNT zone →
      b1 / BITS_PER_CHUNK ≠ b2 / BITS_PER_CHUNK →
      (POINTER_FROM_BITSLOT zone b1 + zone.chunk_size ≤ POINTER_FROM_BITSLOT zone b2 ∨
       POINTER_FROM_BITSLOT zone b2 + zone.chunk_size ≤ POINTER_FROM_BITSLOT zone b1)) ∧
    (∀ b : Nat, b % 2 = 0 →
      POINTER_FROM_BITSLOT zone (b + 1) = POINTER_FROM_BITSLOT zone b) := by
  constructor
  · intro b1 b2 hcs h1 h2 hne
    have e1 := chunk_end_le_zone_size zone.chunk_size (b1 / BITS_PER_CHUNK) h1
    have e2 := chunk_end_le_zone_size zone.chunk_size (b2 / BITS_PER_CHUNK) h2
    have hlt : b1 / BITS_PER_CHUNK < b2 / BITS_PER_CHUNK ∨
        b2 / BITS_PER_CHUNK < b1 / BITS_PER_CHUNK := Nat.lt_or_gt_of_ne hne
    have hapart : (b1 / BITS_PER_CHUNK) * zone.chunk_size + zone.chunk_size
          ≤ (b2 / BITS_PER_CHUNK) * zone.chunk_size ∨
        (b2 / BITS_PER_CHUNK) * zone.chunk_size + zone.chunk_size
          ≤ (b1 / BITS_PER_CHUNK) * zone.chunk_size := by
      rcases hlt with h | h
      · exact Or.inl (chunk_starts_apart _ _ _ h)
      · exact Or.inr (chunk_starts_apart _ _ _ h)
    simp only [POINTER_FROM_BITSLOT, WORD, ZONE_USER_SIZE] at *
    generalize (b1 / BITS_PER_CHUNK) * zone.chunk_size = o1 at *
    generalize (b2 / BITS_PER_CHUNK) * zone.chunk_size = o2 at *
    omega
  · intro b hb
    have h : (b + 1) / 2 = b / 2 := by omega
    simp only [POINTER_FROM_BITSLOT, BITS_PER_CHUNK, h]

/-- Witness for C2: chunks 1 and 3 of a 16-byte zone (bit slots 2 and 7). -/
theorem chunks_do_not_overlap_witness :
    (POINTER_FROM_BITSLOT (sample_zone 4096 16) 2 + (sample_zone 4096 16).chunk_size
        ≤ POINTER_FROM_BITSLOT (sample_zone 4096 16) 7 ∨
      POINTER_FROM_BITSLOT (sample_zone 4096 16) 7 + (sample_zone 4096 16).chunk_size
        ≤ POINTER_FROM_BITSLOT (sample_zone 4096 16) 2) ∧
    POINTER_FROM_BITSLOT (sample_zone 4096 16) (6 + 1)
      = POINTER_FROM_BITSLOT (sample_zone 4096 16) 6 :=
  ⟨(chunks_do_not_overlap (sample_zone 4096 16)).1 2 7
      (by decide) (by decide) (by decide) (by decide),
   (chunks_do_not_overlap (sample_zone 4096 16)).2 6 (by decide)⟩

/-! ## Pointer masking -/

/-- C3: masking a zone's pointers is undone by unmasking, in either order:
`UNMASK_ZONE_PTRS` after `MASK_ZONE_PTRS`, and `MASK_ZONE_PTRS` after
`UNMASK_ZONE_PTRS`, give back the zone, whatever `user_pages_start`,
`bitmap_start` and `pointer_mask` are. -/
theorem mask_unmask_zone_ptrs (zone : iso_alloc_zone) :
    UNMASK_ZONE_PTRS (MASK_ZONE_PTRS zone) = zone ∧
    MASK_ZONE_PTRS (UNMASK_ZONE_PTRS zone) = zone := by
  cases zone
  simp [UNMASK_ZONE_PTRS, MASK_ZONE_PTRS, MASK_USER_PTRS, MASK_BITMAP_PTRS,
    Nat.xor_assoc]

/-- C4: for every `big_zone_next_mask` and every link `p` (`0` for `NULL`),
`MASK_BIG_ZONE_NEXT(p)` is `p XOR mask` and unmasking the masked link gives `p`
back. -/
theorem mask_unmask_big_zone_next (root : iso_alloc_root) (p : Nat) :
    MASK_BIG_ZONE_NEXT root p = p ^^^ root.big_zone_next_mask ∧
    UNMASK_BIG_ZONE_NEXT root (MASK_BIG_ZONE_NEXT root p) = p := by
  unfold MASK_BIG_ZONE_NEXT UNMASK_BIG_ZONE_NEXT
  exact ⟨Nat.xor_comm _ _, Nat.xor_cancel_left _ _⟩

/-! ## Bitmap tiling and size bounds -/

/-- C5: for a power-of-two chunk size between 16 and `SMALL_SZ_MAX` and a
bitmap of `GET_CHUNK_COUNT * 2 / 8` bytes, the bitmap words tile the zone:
`GET_MAX_BITMASK_INDEX * (BITS_PER_QWORD / BITS_PER_CHUNK) * chunk_size` is
`ZONE_USER_SIZE`, the chunk size divides `ZONE_USER_SIZE`, and the bitmap is a
whole, positive number of 64-bit words of 32 chunks each. -/
theorem bitmap_words_tile_zone (zone : iso_alloc_zone) (k : Nat)
    (hpow : zone.chunk_size = 2 ^ k)
    (hlo : 16 ≤ zone.chunk_size) (hhi : zone.chunk_size ≤ SMALL_SZ_MAX)
    (hbm : zone.bitmap_size = GET_CHUNK_COUNT zone * BITS_PER_CHUNK / BITS_PER_BYTE) :
    GET_MAX_BITMASK_INDEX zone * (BITS_PER_QWORD / BITS_PER_CHUNK) * zone.chunk_size
      = ZONE_USER_SIZE ∧
    ZONE_USER_SIZE % zone.chunk_size = 0 ∧
    zone.bitmap_size % (BITS_PER_QWORD / BITS_PER_BYTE) = 0 ∧
    1 ≤ GET_MAX_BITMASK_INDEX zone ∧
    GET_MAX_BITMASK_INDEX zone * 32 = GET_CHUNK_COUNT zone := by
  have hk : k < 19 := by
    by_contra hge
    have h19 : 2 ^ 19 ≤ 2 ^ k := Nat.pow_le_pow_right (by norm_num) (by omega)
    simp only [SMALL_SZ_MAX] at hhi
    omega
  have hk4 : 4 ≤ k := by
    by_contra hlt
    have h3 : 2 ^ k ≤ 2 ^ 3 := Nat.pow_le_pow_right (by norm_num) (by omega)
    omega
  simp only [GET_MAX_BITMASK_INDEX, GET_CHUNK_COUNT, hbm, hpow, ZONE_USER_SIZE,
    BITS_PER_CHUNK, BITS_PER_BYTE, BITS_PER_QWORD, Nat.shiftRight_eq_div_pow]
  interval_cases k <;> decide

/-- Witness for C5: the 4096-byte zone, whose bitmap is 512 bytes. -/
theorem bitmap_words_tile_zone_witness :
    GET_MAX_BITMASK_INDEX { sample_zone 4096 4096 with bitmap_size := 512 }
        * (BITS_PER_QWORD / BITS_PER_CHUNK)
        * ({ sample_zone 4096 4096 with bitmap_size := 512 } : iso_alloc_zone).chunk_size
      = ZONE_USER_SIZE :=
  (bitmap_words_tile_zone { sample_zone 4096 4096 with bitmap_size := 512 } 12
    (by decide) (by decide) (by decide) (by decide)).1

/-- C6: `SMALL_SZ_MAX * (BITS_PER_QWORD / BITS_PER_CHUNK)` is `ZONE_USER_SIZE`, a
zone of chunk size `SMALL_SZ_MAX` holds exactly 32 chunks, and every larger
chunk size gives fewer than 32 chunks. -/
theorem small_sz_max_fills_one_word :
    SMALL_SZ_MAX * (BITS_PER_QWORD / BITS_PER_CHUNK) = ZONE_USER_SIZE ∧
    (∀ zone : iso_alloc_zone, zone.chunk_size = SMALL_SZ_MAX →
      GET_CHUNK_COUNT zone = 32) ∧
    (∀ zone : iso_alloc_zone, SMALL_SZ_MAX < zone.chunk_size →
      GET_CHUNK_COUNT zone < BITS_PER_QWORD / BITS_PER_CHUNK) := by
  refine ⟨by decide, ?_, ?_⟩
  · intro zone h
    simp only [GET_CHUNK_COUNT, h]
    decide
  intro zone h
  simp only [GET_CHUNK_COUNT, ZONE_USER_SIZE, SMALL_SZ_MAX, BITS_PER_QWORD,
    BITS_PER_CHUNK] at *
  rw [Nat.div_lt_iff_lt_mul (by omega)]
  omega

/-- Witness for C6: chunk size `SMALL_SZ_MAX` gives 32 chunks and chunk size
`SMALL_SZ_MAX + 1` gives fewer. -/
theorem small_sz_max_fills_one_word_witness :
    GET_CHUNK_COUNT (sample_zone 0 SMALL_SZ_MAX) = 32 ∧
    GET_CHUNK_COUNT (sample_zone 0 (SMALL_SZ_MAX + 1)) < BITS_PER_QWORD / BITS_PER_CHUNK :=
  ⟨small_sz_max_fills_one_word.2.1 (sample_zone 0 SMALL_SZ_MAX) rfl,
   small_sz_max_fills_one_word.2.2 (sample_zone 0 (SMALL_SZ_MAX + 1)) (by decide)⟩

/-- C7: for a request size `n` below `BIG_SZ_MAX`, `ALIGN_SZ_UP(n)` is the
least multiple of `ALIGNMENT` that is at least `n`: it is a multiple of 8, lies
in `[n, n + 8)`, is below every other multiple of 8 that is at least `n`, is
`n` itself when `n` is a multiple of 8, and rounding it again changes
nothing. -/
theorem align_sz_up_least_multiple (n : Nat) (hn : n < BIG_SZ_MAX) :
    ALIGN_SZ_UP n % ALIGNMENT = 0 ∧
    n ≤ ALIGN_SZ_UP n ∧
    ALIGN_SZ_UP n < n + ALIGNMENT ∧
    (∀ m : Nat, m % ALIGNMENT = 0 → n ≤ m → ALIGN_SZ_UP n ≤ m) ∧
    (n % ALIGNMENT = 0 → ALIGN_SZ_UP n = n) ∧
    ALIGN_SZ_UP (ALIGN_SZ_UP n) = ALIGN_SZ_UP n := by
  unfold BIG_SZ_MAX at hn
  unfold ALIGN_SZ_UP ALIGNMENT WORD
  refine ⟨?_, ?_, ?_, ?_, ?_, ?_⟩
  · omega
  · omega
  · omega
  · intro m hm hle; omega
  · intro h; omega
  · omega

/-- Witness for C7: a request of 13 bytes is rounded to 16. -/
theorem align_sz_up_least_multiple_witness :
    ALIGN_SZ_UP 13 % ALIGNMENT = 0 ∧
    13 ≤ ALIGN_SZ_UP 13 ∧
    ALIGN_SZ_UP 13 < 13 + ALIGNMENT ∧
    (∀ m : Nat, m % ALIGNMENT = 0 → 13 ≤ m → ALIGN_SZ_UP 13 ≤ m) ∧
    (13 % ALIGNMENT = 0 → ALIGN_SZ_UP 13 = 13) ∧
    ALIGN_SZ_UP (ALIGN_SZ_UP 13) = ALIGN_SZ_UP 13 :=
  align_sz_up_least_multiple 13 (by decide)

/-! ## Canary mask -/

/-- C9: for 64-bit `canary_secret` and chunk address, the value
`(canary_secret XOR addr) & CANARY_VALIDATE_MASK` has a zero low byte and
agrees with `canary_secret XOR addr` on the upper 56 bits; and two 64-bit values
are equal under `CANARY_VALIDATE_MASK` exactly when they agree above the low
byte. -/
theorem canary_value_ignores_low_byte (canary_secret addr : Nat)
    (hs : canary_secret < WORD) (ha : addr < WORD) :
    ((canary_secret ^^^ addr) &&& CANARY_VALIDATE_MASK) % 256 = 0 ∧
    ((canary_secret ^^^ addr) &&& CANARY_VALIDATE_MASK) / 256
      = (canary_secret ^^^ addr) / 256 ∧
    (∀ x y : Nat, x < WORD → y < WORD →
      (x &&& CANARY_VALIDATE_MASK = y &&& CANARY_VALIDATE_MASK ↔ x / 256 = y / 256)) := by
  have hx : canary_secret ^^^ addr < WORD := Nat.xor_lt_two_pow hs ha
  refine ⟨?_, ?_, ?_⟩
  · rw [and_canary_validate_mask _ hx]
    exact Nat.mul_mod_left _ _
  · rw [and_canary_validate_mask _ hx]
    exact Nat.mul_div_cancel _ (by norm_num)
  · intro x y hx hy
    rw [and_canary_validate_mask x hx, and_canary_validate_mask y hy]
    constructor
    · intro h; omega
    · intro h; rw [h]

/-- Witness for C9: secret `0xdeadbeefcafe1200` and chunk address
`0x7f00000010ff`. -/
theorem canary_value_ignores_low_byte_witness :
    ((0xdeadbeefcafe1200 ^^^ 0x7f00000010ff) &&& CANARY_VALIDATE_MASK) % 256 = 0 ∧
    ((0xdeadbeefcafe1200 ^^^ 0x7f00000010ff) &&& CANARY_VALIDATE_MASK) / 256
      = (0xdeadbeefcafe1200 ^^^ 0x7f00000010ff) / 256 ∧
    (∀ x y : Nat, x < WORD → y < WORD →
      (x &&& CANARY_VALIDATE_MASK = y &&& CANARY_VALIDATE_MASK ↔ x / 256 = y / 256)) :=
  canary_value_ignores_low_byte 0xdeadbeefcafe1200 0x7f00000010ff
    (by decide) (by decide)

/-! ## Default size classes -/

/-- C10: in both startup profiles `default_zones` is strictly increasing, and
for every request size not above its last entry the first entry in array order
that is at least the size exists and is the smallest entry that is at least the
size. -/
theorem default_zones_first_fit_is_tightest (small_mem_startup : Bool) :
    (default_zones small_mem_startup).Pairwise (· < ·) ∧
    ∀ s : Nat, s ≤ (default_zones small_mem_startup).getLastD 0 →
      ∃ z, (default_zones small_mem_startup).find? (fun e => decide (s ≤ e)) = some z ∧
        z ∈ default_zones small_mem_startup ∧ s ≤ z ∧
        ∀ e ∈ default_zones small_mem_startup, s ≤ e → z ≤ e := by
  have hsorted : (default_zones small_mem_startup).Pairwise (· < ·) := by
    cases small_mem_startup <;> decide
  have hlast : (default_zones small_mem_startup).getLastD 0
      ∈ default_zones small_mem_startup := by
    cases small_mem_startup <;> decide
  refine ⟨hsorted, ?_⟩
  intro s hs
  obtain ⟨z, hz⟩ := first_fit_exists (default_zones small_mem_startup) s ⟨_, hlast, hs⟩
  exact ⟨z, hz, first_fit_is_least _ s z hsorted hz⟩

/-- Witness for C10: a request of 100 bytes picks the 128-byte class in the
default profile and the 256-byte class under `SMALL_MEM_STARTUP`. -/
theorem default_zones_first_fit_is_tightest_witness :
    (∃ z, (default_zones false).find? (fun e => decide (100 ≤ e)) = some z ∧
        z ∈ default_zones false ∧ 100 ≤ z ∧
        ∀ e ∈ default_zones false, 100 ≤ e → z ≤ e) ∧
    (∃ z, (default_zones true).find? (fun e => decide (100 ≤ e)) = some z ∧
        z ∈ default_zones true ∧ 100 ≤ z ∧
        ∀ e ∈ default_zones true, 100 ≤ e → z ≤ e) :=
  ⟨(default_zones_first_fit_is_tightest false).2 100 (by decide),
   (default_zones_first_fit_is_tightest true).2 100 (by decide)⟩

/-! ## The fatal-path diagnostic -/

/-- C8, evaluated on the code: for the `LOG_AND_ABORT` format with message `x`,
pid 7, file `a.c`, line 42 and function `f`, the bytes handed to `write` have a
NUL byte after every run of literal text (the `p++` that follows the copy
loop skips one byte of the zeroed buffer), so they do not begin with
`[ABORTING][7](a.c:42 f()) x` and a newline. -/
theorem abort_diagnostic_has_nul_gaps :
    written 33
        (_iso_alloc_printf (some (bytes "[ABORTING][%d](%s:%d %s()) x\n"))
          [Arg.int32 7, Arg.str (some (bytes "a.c")), Arg.int32 42,
            Arg.str (some (bytes "f"))])
      = some (bytes "[ABORTING][" ++ [0] ++ bytes "7](" ++ [0] ++ bytes "a.c:" ++ [0]
          ++ bytes "42 " ++ [0] ++ bytes "f()) x\n" ++ [0]) ∧
    written (bytes "[ABORTING][7](a.c:42 f()) x\n").length
        (_iso_alloc_printf (some (bytes "[ABORTING][%d](%s:%d %s()) x\n"))
          [Arg.int32 7, Arg.str (some (bytes "a.c")), Arg.int32 42,
            Arg.str (some (bytes "f"))])
      ≠ some (bytes "[ABORTING][7](a.c:42 f()) x\n") := by
  constructor <;> decide

/-! ## Bit slots and bitmap words -/

/-- `GET_BIT` reads the bit `k` of a word. -/
theorem get_bit_eq_testBit (n k : Nat) : GET_BIT n k = (n.testBit k).toNat := by
  rw [GET_BIT, Nat.and_one_is_mod, Nat.shiftRight_eq_div_pow, Nat.toNat_testBit]

/-- The bits of the word `SET_BIT` gives, for a bit position below 64. -/
theorem testBit_set_bit (n k i : Nat) (hk : k < 64) :
    (SET_BIT n k).testBit i = (n.testBit i || decide (k = i)) := by
  have hlt : 2 ^ k < 2 ^ 64 := Nat.pow_lt_pow_right (by norm_num) hk
  rw [SET_BIT, WORD, Nat.shiftLeft_eq, Nat.one_mul, Nat.mod_eq_of_lt hlt, Nat.testBit_or,
    Nat.testBit_two_pow]

/-- The bits of the word `UNSET_BIT` gives, for a 64-bit word and a bit
position below 64. -/
theorem testBit_unset_bit (n k i : Nat) (hn : n < WORD) (hk : k < 64) :
    (UNSET_BIT n k).testBit i = (n.testBit i && !decide (k = i)) := by
  have hlt : 2 ^ k < 2 ^ 64 := Nat.pow_lt_pow_right (by norm_num) hk
  have hsub : 2 ^ 64 - 1 - 2 ^ k = 2 ^ 64 - (2 ^ k + 1) := by omega
  rw [UNSET_BIT, WORD, Nat.shiftLeft_eq, Nat.one_mul, Nat.mod_eq_of_lt hlt, Nat.testBit_and,
    hsub, Nat.testBit_two_pow_sub_succ hlt, Nat.testBit_two_pow]
  by_cases hi : i < 64
  · simp [hi]
  · have hfalse : n.testBit i = false :=
      Nat.testBit_lt_two_pow (lt_of_lt_of_le hn (Nat.pow_le_pow_right (by norm_num) (by omega)))
    simp [hfalse]

/-- C16: `WHICH_BIT(b)` is `b mod 64`, it is below `BITS_PER_QWORD`, and
`b = (b >> BITS_PER_QWORD_SHIFT) * BITS_PER_QWORD + WHICH_BIT(b)`; for an even
bit slot `WHICH_BIT(b)` is even and at most 62, so `WHICH_BIT(b) + 1` is below
`BITS_PER_QWORD` too and bit slot `b + 1` lies in the same word, at
`WHICH_BIT(b) + 1`; a word holds `BITS_PER_QWORD / BITS_PER_CHUNK = 32` chunk
states. -/
theorem which_bit_within_word (b : Nat) :
    WHICH_BIT b = b % 64 ∧
    WHICH_BIT b < BITS_PER_QWORD ∧
    b = (b >>> BITS_PER_QWORD_SHIFT) * BITS_PER_QWORD + WHICH_BIT b ∧
    (b % 2 = 0 →
      WHICH_BIT b % 2 = 0 ∧ WHICH_BIT b ≤ 62 ∧ WHICH_BIT b + 1 < BITS_PER_QWORD ∧
      WHICH_BIT (b + 1) = WHICH_BIT b + 1 ∧
      (b + 1) >>> BITS_PER_QWORD_SHIFT = b >>> BITS_PER_QWORD_SHIFT) ∧
    BITS_PER_QWORD / BITS_PER_CHUNK = 32 := by
  have hw : ∀ x : Nat, WHICH_BIT x = x % 64 := by
    intro x
    have h := Nat.and_pow_two_sub_one_eq_mod x 6
    simpa [WHICH_BIT, BITS_PER_QWORD] using h
  simp only [hw, BITS_PER_QWORD, BITS_PER_QWORD_SHIFT, BITS_PER_CHUNK,
    Nat.shiftRight_eq_div_pow]
  refine ⟨trivial, by omega, by omega, ?_, by norm_num⟩
  intro hb
  refine ⟨by omega, by omega, by omega, by omega, by omega⟩

/-- Witness for C16: bit slot 190 is bit 62 of word 2, and bit slot 191 is bit
63 of the same word. -/
theorem which_bit_within_word_witness :
    WHICH_BIT 190 % 2 = 0 ∧ WHICH_BIT 190 ≤ 62 ∧ WHICH_BIT 190 + 1 < BITS_PER_QWORD ∧
    WHICH_BIT (190 + 1) = WHICH_BIT 190 + 1 ∧
    (190 + 1) >>> BITS_PER_QWORD_SHIFT = 190 >>> BITS_PER_QWORD_SHIFT :=
  (which_bit_within_word 190).2.2.2.1 (by decide)

/-- C17: on a 64-bit word and bit positions below 64, `GET_BIT` is 1 after
`SET_BIT` and 0 after `UNSET_BIT` of the same position, both leave `GET_BIT` of
every other position as it was, both give a 64-bit word, and `UNSET_BIT` after
`SET_BIT` of a position whose bit was 0 restores the word. -/
theorem bit_store_laws (n j k : Nat) (hn : n < WORD) (_hj : j < 64) (hk : k < 64) :
    GET_BIT (SET_BIT n k) k = 1 ∧
    GET_BIT (UNSET_BIT n k) k = 0 ∧
    (j ≠ k → GET_BIT (SET_BIT n k) j = GET_BIT n j ∧
      GET_BIT (UNSET_BIT n k) j = GET_BIT n j) ∧
    SET_BIT n k < WORD ∧ UNSET_BIT n k < WORD ∧
    (GET_BIT n k = 0 → UNSET_BIT (SET_BIT n k) k = n) := by
  have hlt : 2 ^ k < 2 ^ 64 := Nat.pow_lt_pow_right (by norm_num) hk
  have hset : SET_BIT n k < WORD := by
    rw [SET_BIT, WORD, Nat.shiftLeft_eq, Nat.one_mul, Nat.mod_eq_of_lt hlt]
    exact Nat.or_lt_two_pow hn hlt
  have hunset : UNSET_BIT n k < WORD := by
    rw [UNSET_BIT]
    exact lt_of_le_of_lt Nat.and_le_left hn
  refine ⟨?_, ?_, ?_, hset, hunset, ?_⟩
  · rw [get_bit_eq_testBit, testBit_set_bit n k k hk]; simp
  · rw [get_bit_eq_testBit, testBit_unset_bit n k k hn hk]; simp
  · intro hjk
    have hkj : ¬ k = j := fun h => hjk h.symm
    constructor
    · rw [get_bit_eq_testBit, get_bit_eq_testBit, testBit_set_bit n k j hk]; simp [hkj]
    · rw [get_bit_eq_testBit, get_bit_eq_testBit, testBit_unset_bit n k j hn hk]; simp [hkj]
  · intro h0
    rw [get_bit_eq_testBit] at h0
    have hbit : n.testBit k = false := by
      cases hb : n.testBit k
      · rfl
      · rw [hb] at h0; simp at h0
    apply Nat.eq_of_testBit_eq
    intro i
    rw [testBit_unset_bit _ k i hset hk, testBit_set_bit n k i hk]
    by_cases hki : k = i
    · subst hki; simp [hbit]
    · simp [hki]

/-- Witness for C17: the word `0x5` and the bit positions 0 and 3. -/
theorem bit_store_laws_witness :
    GET_BIT (SET_BIT 5 3) 3 = 1 ∧
    GET_BIT (UNSET_BIT 5 3) 3 = 0 ∧
    (0 ≠ 3 → GET_BIT (SET_BIT 5 3) 0 = GET_BIT 5 0 ∧
      GET_BIT (UNSET_BIT 5 3) 0 = GET_BIT 5 0) ∧
    SET_BIT 5 3 < WORD ∧ UNSET_BIT 5 3 < WORD ∧
    (GET_BIT 5 3 = 0 → UNSET_BIT (SET_BIT 5 3) 3 = 5) :=
  bit_store_laws 5 0 3 (by decide) (by decide) (by decide)

/-! ## Frame of the pointer masking -/

/-- C18: `MASK_ZONE_PTRS` replaces `user_pages_start` and `bitmap_start` by
their XOR with `pointer_mask` and leaves every other field of the zone as it
was. -/
theorem mask_zone_ptrs_frame (zone : iso_alloc_zone) :
    (MASK_ZONE_PTRS zone).user_pages_start = zone.user_pages_start ^^^ zone.pointer_mask ∧
    (MASK_ZONE_PTRS zone).bitmap_start = zone.bitmap_start ^^^ zone.pointer_mask ∧
    (MASK_ZONE_PTRS zone).pointer_mask = zone.pointer_mask ∧
    (MASK_ZONE_PTRS zone).canary_secret = zone.canary_secret ∧
    (MASK_ZONE_PTRS zone).chunk_size = zone.chunk_size ∧
    (MASK_ZONE_PTRS zone).bitmap_size = zone.bitmap_size ∧
    (MASK_ZONE_PTRS zone).next_free_bit_slot = zone.next_free_bit_slot ∧
    (MASK_ZONE_PTRS zone).is_full = zone.is_full ∧
    (MASK_ZONE_PTRS zone).internally_managed = zone.internally_managed ∧
    (MASK_ZONE_PTRS zone).index = zone.index ∧
    (MASK_ZONE_PTRS zone).free_bit_slot_cache_index = zone.free_bit_slot_cache_index ∧
    (MASK_ZONE_PTRS zone).free_bit_slot_cache_usable = zone.free_bit_slot_cache_usable ∧
    (MASK_ZONE_PTRS zone).free_bit_slot_cache = zone.free_bit_slot_cache ∧
    MASK_ZONE_PTRS zone =
      { zone with
        user_pages_start := zone.user_pages_start ^^^ zone.pointer_mask,
        bitmap_start := zone.bitmap_start ^^^ zone.pointer_mask } := by
  cases zone
  simp [MASK_ZONE_PTRS, MASK_USER_PTRS, MASK_BITMAP_PTRS]

/-! ## Bitmap words of zones of any chunk size -/

/-- C19, as stated, fails: a zone of chunk size 200 (a multiple of `ALIGNMENT`
between 16 and `SMALL_SZ_MAX`) with a bitmap of `GET_CHUNK_COUNT * 2 / 8 = 10485`
bytes has 41943 chunks but only 1310 bitmap words, which hold the states of
41920 chunks. -/
theorem bitmap_words_miss_chunks_of_size_200 :
    16 ≤ ({ sample_zone 0 200 with bitmap_size := 10485 } : iso_alloc_zone).chunk_size ∧
    ({ sample_zone 0 200 with bitmap_size := 10485 } : iso_alloc_zone).chunk_size
      ≤ SMALL_SZ_MAX ∧
    ({ sample_zone 0 200 with bitmap_size := 10485 } : iso_alloc_zone).chunk_size
      % ALIGNMENT = 0 ∧
    ({ sample_zone 0 200 with bitmap_size := 10485 } : iso_alloc_zone).bitmap_size
      = GET_CHUNK_COUNT { sample_zone 0 200 with bitmap_size := 10485 }
        * BITS_PER_CHUNK / BITS_PER_BYTE ∧
    GET_CHUNK_COUNT { sample_zone 0 200 with bitmap_size := 10485 } = 41943 ∧
    GET_MAX_BITMASK_INDEX { sample_zone 0 200 with bitmap_size := 10485 } * 32 = 41920 ∧
    ¬ (GET_MAX_BITMASK_INDEX { sample_zone 0 200 with bitmap_size := 10485 } * 32
        ≥ GET_CHUNK_COUNT { sample_zone 0 200 with bitmap_size := 10485 }) := by
  decide

/-- C19, amended: for every chunk size between 16 and `SMALL_SZ_MAX` that is a
multiple of `ALIGNMENT` and a bitmap of `GET_CHUNK_COUNT * 2 / 8` bytes, the
bitmap words hold the states of `GET_MAX_BITMASK_INDEX * 32` chunks, which is
the chunk count rounded down to a multiple of 32: never more than the chunk
count, fewer by at most 31, and all of them exactly when the chunk count is a
multiple of 32. -/
theorem bitmap_words_cover_chunks_rounded_down (zone : iso_alloc_zone)
    (hlo : 16 ≤ zone.chunk_size) (hhi : zone.chunk_size ≤ SMALL_SZ_MAX)
    (_halign : zone.chunk_size % ALIGNMENT = 0)
    (hbm : zone.bitmap_size = GET_CHUNK_COUNT zone * BITS_PER_CHUNK / BITS_PER_BYTE) :
    GET_MAX_BITMASK_INDEX zone * 32 = GET_CHUNK_COUNT zone / 32 * 32 ∧
    GET_MAX_BITMASK_INDEX zone * 32 ≤ GET_CHUNK_COUNT zone ∧
    GET_CHUNK_COUNT zone < GET_MAX_BITMASK_INDEX zone * 32 + 32 ∧
    (GET_MAX_BITMASK_INDEX zone * 32 ≥ GET_CHUNK_COUNT zone ↔
      GET_CHUNK_COUNT zone % 32 = 0) ∧
    32 ≤ GET_CHUNK_COUNT zone := by
  have hcount : 32 ≤ GET_CHUNK_COUNT zone := by
    simp only [GET_CHUNK_COUNT, ZONE_USER_SIZE, SMALL_SZ_MAX] at *
    rw [Nat.le_div_iff_mul_le (by omega)]
    omega
  simp only [GET_MAX_BITMASK_INDEX, hbm, BITS_PER_CHUNK, BITS_PER_BYTE,
    Nat.shiftRight_eq_div_pow]
  generalize GET_CHUNK_COUNT zone = c at *
  refine ⟨by omega, by omega, by omega, ?_, hcount⟩
  constructor <;> intro h <;> omega

/-- Witness for C19, amended: the zone of chunk size 200. -/
theorem bitmap_words_cover_chunks_rounded_down_witness :
    GET_MAX_BITMASK_INDEX { sample_zone 0 200 with bitmap_size := 10485 } * 32
      = GET_CHUNK_COUNT { sample_zone 0 200 with bitmap_size := 10485 } / 32 * 32 ∧
    GET_MAX_BITMASK_INDEX { sample_zone 0 200 with bitmap_size := 10485 } * 32
      ≤ GET_CHUNK_COUNT { sample_zone 0 200 with bitmap_size := 10485 } ∧
    GET_CHUNK_COUNT { sample_zone 0 200 with bitmap_size := 10485 }
      < GET_MAX_BITMASK_INDEX { sample_zone 0 200 with bitmap_size := 10485 } * 32 + 32 ∧
    (GET_MAX_BITMASK_INDEX { sample_zone 0 200 with bitmap_size := 10485 } * 32
        ≥ GET_CHUNK_COUNT { sample_zone 0 200 with bitmap_size := 10485 } ↔
      GET_CHUNK_COUNT { sample_zone 0 200 with bitmap_size := 10485 } % 32 = 0) ∧
    32 ≤ GET_CHUNK_COUNT { sample_zone 0 200 with bitmap_size := 10485 } :=
  bitmap_words_cover_chunks_rounded_down { sample_zone 0 200 with bitmap_size := 10485 }
    (by decide) (by decide) (by decide) (by decide)

/-! ## Bounds of the default size classes -/

/-- C20, as stated, fails under `SMALL_MEM_STARTUP`: the largest entry of
`default_zones` is `ZONE_1024`, while `MAX_DEFAULT_ZONE_SZ` is `ZONE_8192`, which
is not an entry of the table. -/
theorem max_default_zone_sz_not_in_small_table :
    (ZONE_1024 ∈ default_zones true ∧ ∀ e ∈ default_zones true, e ≤ ZONE_1024) ∧
    MAX_DEFAULT_ZONE_SZ = ZONE_8192 ∧
    MAX_DEFAULT_ZONE_SZ ≠ ZONE_1024 ∧
    MAX_DEFAULT_ZONE_SZ ∉ default_zones true := by
  decide

/-- C20, amended: in both startup profiles `SMALLEST_ZONE` is the smallest
entry of `default_zones`, every entry is a power of two that divides
`ZONE_USER_SIZE`, and `MAX_DEFAULT_ZONE_SZ` is at least every entry; it is the
largest entry in the default profile. -/
theorem default_zone_bounds (small_mem_startup : Bool) :
    (SMALLEST_ZONE small_mem_startup ∈ default_zones small_mem_startup ∧
      ∀ e ∈ default_zones small_mem_startup, SMALLEST_ZONE small_mem_startup ≤ e) ∧
    (∀ e ∈ default_zones small_mem_startup, e ≤ MAX_DEFAULT_ZONE_SZ) ∧
    (small_mem_startup = false → MAX_DEFAULT_ZONE_SZ ∈ default_zones small_mem_startup) ∧
    (∀ e ∈ default_zones small_mem_startup,
      (∃ k : Nat, k ≤ 23 ∧ e = 2 ^ k) ∧ ZONE_USER_SIZE % e = 0) := by
  cases small_mem_startup
  · refine ⟨by decide, by decide, by decide, ?_⟩
    intro e he
    simp only [default_zones, ZONE_16, ZONE_32, ZONE_64, ZONE_128, ZONE_256, ZONE_512,
      ZONE_1024, ZONE_2048, ZONE_4096, ZONE_8192, Bool.false_eq_true, if_false,
      List.mem_cons, List.mem_singleton, List.not_mem_nil, or_false] at he
    rcases he with h | h | h | h | h | h | h | h | h | h <;> subst h
    · exact ⟨⟨4, by decide, by decide⟩, by decide⟩
    · exact ⟨⟨5, by decide, by decide⟩, by decide⟩
    · exact ⟨⟨6, by decide, by decide⟩, by decide⟩
    · exact ⟨⟨7, by decide, by decide⟩, by decide⟩
    · exact ⟨⟨8, by decide, by decide⟩, by decide⟩
    · exact ⟨⟨9, by decide, by decide⟩, by decide⟩
    · exact ⟨⟨10, by decide, by decide⟩, by decide⟩
    · exact ⟨⟨11, by decide, by decide⟩, by decide⟩
    · exact ⟨⟨12, by decide, by decide⟩, by decide⟩
    · exact ⟨⟨13, by decide, by decide⟩, by decide⟩
  · refine ⟨by decide, by decide, by decide, ?_⟩
    intro e he
    simp only [default_zones, ZONE_64, ZONE_256, ZONE_512, ZONE_1024, if_true,
      List.mem_cons, List.mem_singleton, List.not_mem_nil, or_false] at he
    rcases he with h | h | h | h <;> subst h
    · exact ⟨⟨6, by decide, by decide⟩, by decide⟩
    · exact ⟨⟨8, by decide, by decide⟩, by decide⟩
    · exact ⟨⟨9, by decide, by decide⟩, by decide⟩
    · exact ⟨⟨10, by decide, by decide⟩, by decide⟩

/-- Witness for C20, amended: the default profile, where `MAX_DEFAULT_ZONE_SZ`
is an entry of the table. -/
theorem default_zone_bounds_witness :
    MAX_DEFAULT_ZONE_SZ ∈ default_zones false :=
  (default_zone_bounds false).2.2.1 rfl

/-! ## The digit loop of `_fmt` -/

/-- Every digit below 16 has a character in `asc_hex`, which is not NUL and
reads back as the digit. -/
theorem digit_char_spec (d : Nat) (hd : d < 16) :
    asc_hex.get? d = some (digit_char d) ∧ digit_char d ≠ 0 ∧
    digit_value (digit_char d) = d ∧ (digit_char d = '0'.toNat → d = 0) := by
  interval_cases d <;> decide

/-- A store at index `i` replaces the head of the list from `i` on. -/
theorem drop_set_self (l : List Nat) (i c : Nat) (hi : i < l.length) :
    (l.set i c).drop i = c :: l.drop (i + 1) := by
  rw [List.drop_set, if_neg (Nat.lt_irrefl i), Nat.sub_self,
    List.drop_eq_getElem_cons hi, List.set_cons_zero]

/-- The digit loop, started with room for all digits of `n`, ends without a
fault; it moves `ptr` down by the number of digits, counts them, keeps the
length of `fmt_buf`, and leaves the digits of `n`, most significant first, in
front of what stood at `ptr`. -/
theorem fmt_loop_spec (base : Nat) (hb : 2 ≤ base) (hb16 : base ≤ 16) (ptr : Nat) :
    ∀ (n : Nat) (buf : List Nat) (count : Nat),
      (Nat.digits base n).length ≤ ptr → ptr ≤ buf.length →
      count + (Nat.digits base n).length < 2 ^ 32 →
      ∃ st, _fmt_loop base ptr n buf count = .ok st ∧
        st.ptr = ptr - (Nat.digits base n).length ∧
        st.count = count + (Nat.digits base n).length ∧
        st.fmt_buf.length = buf.length ∧
        st.fmt_buf.drop st.ptr
          = (Nat.digits base n).reverse.map digit_char ++ buf.drop ptr := by
  induction ptr with
  | zero =>
    intro n buf count hlen _ _
    have hnil : Nat.digits base n = [] := List.length_eq_zero.1 (Nat.le_zero.1 hlen)
    have hn : n = 0 := Nat.digits_eq_nil_iff_eq_zero.1 hnil
    subst hn
    refine ⟨{ fmt_buf := buf, ptr := 0, count := count }, ?_, ?_, ?_, rfl, ?_⟩
    · unfold _fmt_loop; simp
    · simp
    · simp
    · simp
  | succ ptr ih =>
    intro n buf count hlen hbuf hcount
    by_cases hn : n = 0
    · subst hn
      refine ⟨{ fmt_buf := buf, ptr := ptr + 1, count := count }, ?_, ?_, ?_, rfl, ?_⟩
      · unfold _fmt_loop; simp
      · simp
      · simp
      · simp
    · have hdig : Nat.digits base n = (n % base) :: Nat.digits base (n / base) :=
        Nat.digits_def' (by omega) (Nat.pos_of_ne_zero hn)
      rw [hdig] at hlen hcount ⊢
      simp only [List.length_cons] at hlen hcount
      have hd16 : n % base < 16 := lt_of_lt_of_le (Nat.mod_lt _ (by omega)) hb16
      have hch := (digit_char_spec (n % base) hd16).1
      obtain ⟨st, hst, hptr, hcnt, hlenbuf, hdrop⟩ :=
        ih (n / base) (buf.set ptr (digit_char (n % base))) (count + 1)
          (by omega) (by rw [List.length_set]; omega) (by omega)
      refine ⟨st, ?_, ?_, ?_, ?_, ?_⟩
      · unfold _fmt_loop
        have hb0 : ¬ base = 0 := by omega
        have hmod : (count + 1) % 2 ^ 32 = count + 1 := Nat.mod_eq_of_lt (by omega)
        simp only [ne_eq, hn, not_false_eq_true, if_true, hb0, if_false, hch, hmod]
        exact hst
      · rw [hptr]; simp only [List.length_cons]; omega
      · rw [hcnt]; simp only [List.length_cons]; omega
      · rw [hlenbuf, List.length_set]
      · rw [hdrop, drop_set_self buf ptr _ (by omega)]
        simp [List.reverse_cons, List.map_append]

/-- A value below `base ^ 63` has at most 63 digits. -/
theorem digits_length_le_63 (base n : Nat) (hb : 2 ≤ base) (hn : n < base ^ 63) :
    (Nat.digits base n).length ≤ 63 := by
  by_cases h0 : n = 0
  · subst h0; simp
  · have h1 := Nat.base_pow_length_digits_le base n (by omega) h0
    by_contra hgt
    have h64 : base ^ 64 ≤ base ^ (Nat.digits base n).length :=
      Nat.pow_le_pow_right (by omega) (by omega)
    have h2 : base * n < base * base ^ 63 := Nat.mul_lt_mul_of_pos_left hn (by omega)
    have h3 : base * base ^ 63 = base ^ 64 := by ring
    omega

/-- The digits of a string read back, most significant first. -/
theorem string_value_digits (base : Nat) (l : List Nat) (hl : ∀ d ∈ l, d < 16) :
    string_value base (l.reverse.map digit_char) = Nat.ofDigits base l := by
  unfold string_value
  induction l with
  | nil => simp
  | cons d t ih =>
    have hd : digit_value (digit_char d) = d :=
      (digit_char_spec d (hl d (List.mem_cons_self _ _))).2.2.1
    have ht := ih (fun x hx => hl x (List.mem_cons_of_mem _ hx))
    simp only [List.reverse_cons, List.map_append, List.map_cons, List.map_nil,
      List.foldl_append, List.foldl_cons, List.foldl_nil, ht, hd, Nat.ofDigits_cons]
    ring

/-! ## What `_fmt` returns -/

/-- The string `_fmt` returns for a value that is not zero and fits in
`fmt_buf`: the digits, most significant first. -/
theorem fmt_of_ne_zero (n base : Nat) (hb : 2 ≤ base) (hb16 : base ≤ 16)
    (hn0 : n ≠ 0) (hlen : (Nat.digits base n).length ≤ 63) :
    _fmt n base = .ok ((Nat.digits base n).reverse.map digit_char) := by
  obtain ⟨st, hst, _, hcnt, _, hdrop⟩ :=
    fmt_loop_spec base hb hb16 63 n (List.replicate 64 0) 0 hlen (by simp) (by omega)
  have hne : Nat.digits base n ≠ [] := Nat.digits_ne_nil_iff_ne_zero.2 hn0
  have hpos : 0 < (Nat.digits base n).length := List.length_pos.2 hne
  have hnz : ∀ c ∈ (Nat.digits base n).reverse.map digit_char, (c != 0) = true := by
    intro c hc
    obtain ⟨d, hd, rfl⟩ := List.mem_map.1 hc
    have hd16 : d < 16 :=
      lt_of_lt_of_le (Nat.digits_lt_base (by omega) (List.mem_reverse.1 hd)) hb16
    simpa using (digit_char_spec d hd16).2.1
  have htail : List.drop 63 (List.replicate 64 0) = [0] := by decide
  unfold _fmt
  simp only [FMT_BUF_SIZE, Nat.add_one_sub_one, hst]
  rw [if_neg (by omega), c_string, hdrop, htail, List.takeWhile_append_of_pos hnz]
  simp

/-- C12: for every 64-bit `n` and base 10 or 16, `_fmt(n, base)` ends without a
fault and returns the canonical representation of `n`: a non-empty string of
`asc_hex` digits below the base, none of them NUL, with no leading `0` unless
`n = 0`, which gives exactly `"0"`; read most significant digit first it
denotes `n`; and for `n` not zero it stands in `fmt_buf` just before a NUL
byte. -/
theorem fmt_canonical (n base : Nat) (hn : n < WORD) (hbase : base = 10 ∨ base = 16) :
    ∃ s, _fmt n base = .ok s ∧
      s ≠ [] ∧
      (∀ c ∈ s, c ≠ 0 ∧ ∃ d, d < base ∧ asc_hex.get? d = some c) ∧
      (s.head? = some '0'.toNat → n = 0) ∧
      (n = 0 → s = bytes "0") ∧
      string_value base s = n ∧
      (n ≠ 0 → ∃ st,
        _fmt_loop base (FMT_BUF_SIZE - 1) n (List.replicate FMT_BUF_SIZE 0) 0 = .ok st ∧
        st.fmt_buf.length = FMT_BUF_SIZE ∧ st.fmt_buf.drop st.ptr = s ++ [0]) := by
  have hb : 2 ≤ base := by rcases hbase with h | h <;> omega
  have hb16 : base ≤ 16 := by rcases hbase with h | h <;> omega
  have hpow : n < base ^ 63 := by
    unfold WORD at hn
    rcases hbase with h | h <;> subst h <;>
      exact lt_of_lt_of_le hn (by norm_num)
  have hlen := digits_length_le_63 base n hb hpow
  by_cases hn0 : n = 0
  · subst hn0
    have hzero : _fmt 0 base = .ok (bytes "0") := by
      unfold _fmt _fmt_loop
      simp
    refine ⟨bytes "0", hzero, by decide, ?_, ?_, ?_, ?_, ?_⟩
    · intro c hc
      have hc48 : c = 48 := by simpa [bytes] using hc
      subst hc48
      exact ⟨by decide, 0, by omega, by decide⟩
    · intro _; rfl
    · intro _; rfl
    · simp [string_value, bytes, digit_value, asc_hex]
    · intro h; exact absurd rfl h
  · have hd16 : ∀ d ∈ Nat.digits base n, d < 16 := fun d hd =>
      lt_of_lt_of_le (Nat.digits_lt_base (by omega) hd) hb16
    have hne : Nat.digits base n ≠ [] := Nat.digits_ne_nil_iff_ne_zero.2 hn0
    refine ⟨(Nat.digits base n).reverse.map digit_char,
      fmt_of_ne_zero n base hb hb16 hn0 hlen, ?_, ?_, ?_, ?_, ?_, ?_⟩
    · simpa using hne
    · intro c hc
      obtain ⟨d, hd, rfl⟩ := List.mem_map.1 hc
      have hdm : d ∈ Nat.digits base n := List.mem_reverse.1 hd
      exact ⟨(digit_char_spec d (hd16 d hdm)).2.1, d, Nat.digits_lt_base (by omega) hdm,
        (digit_char_spec d (hd16 d hdm)).1⟩
    · intro hhead
      exfalso
      have hlast := Nat.getLast_digit_ne_zero base hn0
      rw [List.head?_map, List.head?_reverse, List.getLast?_eq_getLast _ hne] at hhead
      simp only [Option.map_some', Option.some.injEq] at hhead
      exact hlast ((digit_char_spec _ (hd16 _ (List.getLast_mem hne))).2.2.2 hhead)
    · intro h; exact absurd h hn0
    · rw [string_value_digits base _ hd16, Nat.ofDigits_digits]
    · intro _
      obtain ⟨st, hst, _, _, hlenbuf, hdrop⟩ :=
        fmt_loop_spec base hb hb16 63 n (List.replicate 64 0) 0 hlen (by simp) (by omega)
      have htail : List.drop 63 (List.replicate 64 0) = [0] := by decide
      refine ⟨st, hst, ?_, ?_⟩
      · rw [hlenbuf]; simp [FMT_BUF_SIZE]
      · rw [hdrop, htail]

/-- Witness for C12: `_fmt(255, 16)`. -/
theorem fmt_canonical_witness :
    ∃ s, _fmt 255 16 = .ok s ∧
      s ≠ [] ∧
      (∀ c ∈ s, c ≠ 0 ∧ ∃ d, d < 16 ∧ asc_hex.get? d = some c) ∧
      (s.head? = some '0'.toNat → 255 = 0) ∧
      (255 = 0 → s = bytes "0") ∧
      string_value 16 s = 255 ∧
      (255 ≠ 0 → ∃ st,
        _fmt_loop 16 (FMT_BUF_SIZE - 1) 255 (List.replicate FMT_BUF_SIZE 0) 0 = .ok st ∧
        st.fmt_buf.length = FMT_BUF_SIZE ∧ st.fmt_buf.drop st.ptr = s ++ [0]) :=
  fmt_canonical 255 16 (by decide) (Or.inr rfl)

/-- C15, as stated, fails for base 2: `_fmt(2 ^ 63, 2)` has 64 digits to store,
and the 64th pre-decrement of the write pointer leaves `fmt_buf`. -/
theorem fmt_base_two_underflows :
    2 ^ 63 < WORD ∧
    _fmt_loop 2 (FMT_BUF_SIZE - 1) (2 ^ 63) (List.replicate FMT_BUF_SIZE 0) 0
      = .error .fmt_buf_underflow ∧
    _fmt (2 ^ 63) 2 = .error .fmt_buf_underflow :=
  ⟨by decide, rfl, rfl⟩

/-- C15, amended: for every 64-bit `n` and every base from 2 to 16, except
base 2 with `n` at or above `2 ^ 63`, the digit loop of `_fmt` ends without a
fault: it produces the digits of `n`, at most 63; the write pointer ends at
`63` minus their number, inside `fmt_buf`; every digit index is below 16; and
`fmt_buf[63]` is still NUL, right after the digits. -/
theorem fmt_loop_within_fmt_buf (n base : Nat) (hn : n < WORD)
    (hb : 2 ≤ base) (hb16 : base ≤ 16) (h2 : base = 2 → n < 2 ^ 63) :
    ∃ st, _fmt_loop base (FMT_BUF_SIZE - 1) n (List.replicate FMT_BUF_SIZE 0) 0 = .ok st ∧
      st.count = (Nat.digits base n).length ∧
      st.count ≤ 63 ∧
      st.ptr + st.count = 63 ∧
      st.fmt_buf.length = FMT_BUF_SIZE ∧
      st.fmt_buf.get? 63 = some 0 ∧
      st.fmt_buf.drop st.ptr = (Nat.digits base n).reverse.map digit_char ++ [0] ∧
      (∀ m : Nat, m % base < 16) := by
  have hpow : n < base ^ 63 := by
    by_cases hb2 : base = 2
    · rw [hb2]; exact h2 hb2
    · unfold WORD at hn
      have h3 : 3 ^ 63 ≤ base ^ 63 := Nat.pow_le_pow_left (by omega) 63
      have h4 : (2 : Nat) ^ 64 < 3 ^ 63 := by norm_num
      omega
  have hlen := digits_length_le_63 base n hb hpow
  obtain ⟨st, hst, hptr, hcnt, hlenbuf, hdrop⟩ :=
    fmt_loop_spec base hb hb16 63 n (List.replicate 64 0) 0 hlen (by simp) (by omega)
  have htail : List.drop 63 (List.replicate 64 0) = [0] := by decide
  rw [htail] at hdrop
  refine ⟨st, hst, by omega, by omega, by omega, ?_, ?_, hdrop, ?_⟩
  · rw [hlenbuf]; simp [FMT_BUF_SIZE]
  · have h63 : 63 = st.ptr + (Nat.digits base n).length := by omega
    have hget : (st.fmt_buf.drop st.ptr)[(Nat.digits base n).length]? = some 0 := by
      rw [hdrop]
      simp [List.getElem?_append_right]
    rw [List.getElem?_drop] at hget
    rw [List.get?_eq_getElem?, h63]
    exact hget
  · intro m
    exact lt_of_lt_of_le (Nat.mod_lt _ (by omega)) hb16

/-- Witness for C15, amended: `_fmt(2 ^ 63 - 1, 2)`, 63 binary digits. -/
theorem fmt_loop_within_fmt_buf_witness :
    ∃ st, _fmt_loop 2 (FMT_BUF_SIZE - 1) (2 ^ 63 - 1) (List.replicate FMT_BUF_SIZE 0) 0
        = .ok st ∧
      st.count = (Nat.digits 2 (2 ^ 63 - 1)).length ∧
      st.count ≤ 63 ∧
      st.ptr + st.count = 63 ∧
      st.fmt_buf.length = FMT_BUF_SIZE ∧
      st.fmt_buf.get? 63 = some 0 ∧
      st.fmt_buf.drop st.ptr = (Nat.digits 2 (2 ^ 63 - 1)).reverse.map digit_char ++ [0] ∧
      (∀ m : Nat, m % 2 < 16) :=
  fmt_loop_within_fmt_buf (2 ^ 63 - 1) 2 (by decide) (by decide) (by decide)
    (fun _ => by decide)

/-! ## The signed conversions -/

/-- The `%d` and `%u` conversions never take the sign branch: `j` is a
`uint32_t`, so `0 > j` is false, and the digits printed are those of the
argument reduced modulo `2 ^ 32`. -/
theorem convert_d_unsigned (v : Int) (idx : List Nat) (p : Nat) (out : List Nat)
    (arg : List Arg) :
    convert 'd'.toNat idx p out (Arg.int32 v :: arg)
      = emit_fmt (v % 2 ^ 32).toNat 10 idx p out arg := by
  unfold convert
  simp

/-- The `%l` conversion never takes the sign branch either: `i` is a
`uint64_t`. -/
theorem convert_l_unsigned (v : Int) (idx : List Nat) (p : Nat) (out : List Nat)
    (arg : List Arg) :
    convert 'l'.toNat idx p out (Arg.int64 v :: arg)
      = emit_fmt (v % 2 ^ 64).toNat 10
          (if idx.headD 0 = 'd'.toNat ∨ idx.headD 0 = 'u'.toNat then idx.tail else idx)
          p out arg := by
  unfold convert
  simp

/-- C13, evaluated on the code: for the argument `-5`, `"%d"` writes
`4294967291` and `"%ld"` writes `18446744073709551611`, each after the NUL byte
the cursor skips, and no `-`: the locals `j` and `i` that receive the argument
are unsigned, so the tests `0 > j` and `0 > i` that guard the sign are never
true. -/
theorem signed_conversions_print_unsigned :
    written 12 (_iso_alloc_printf (some (bytes "%d\n")) [Arg.int32 (-5)])
      = some ([0] ++ bytes "4294967291\n") ∧
    written 22 (_iso_alloc_printf (some (bytes "%ld\n")) [Arg.int64 (-5)])
      = some ([0] ++ bytes "18446744073709551611\n") ∧
    written 12 (_iso_alloc_printf (some (bytes "%d\n")) [Arg.int32 (-5)])
      ≠ some ([0] ++ bytes "-5\n" ++ List.replicate 8 0) ∧
    written 22 (_iso_alloc_printf (some (bytes "%ld\n")) [Arg.int64 (-5)])
      ≠ some ([0] ++ bytes "-5\n" ++ List.replicate 18 0) := by
  refine ⟨by decide, by decide, by decide, by decide⟩

/-! ## Stores past the end of `_out` -/

/-- A `strncpy` that starts inside `_out`, or at its end, and is longer than
the room left stores past the end. -/
theorem strncpy_overflow (s : List Nat) :
    ∀ (out : List Nat) (p : Nat), p ≤ OUT_SIZE → OUT_SIZE < p + s.length →
      strncpy out p s = .error .store_out_of_bounds := by
  induction s with
  | nil => intro out p hp hlen; simp at hlen; omega
  | cons c t ih =>
    intro out p hp hlen
    unfold strncpy store
    by_cases hlt : p < OUT_SIZE
    · simp only [hlt, if_true]
      exact ih _ (p + 1) (by omega) (by simp only [List.length_cons] at hlen; omega)
    · simp [hlt]

/-- A run of literal bytes that starts inside `_out`, or at its end, and is
longer than the room left stores past the end. -/
theorem copy_literal_overflow (k : Nat) :
    ∀ (idx : List Nat) (p : Nat) (out : List Nat), p ≤ OUT_SIZE → OUT_SIZE < p + k →
      copy_literal (List.replicate k 'a'.toNat ++ idx) p out
        = .error .store_out_of_bounds := by
  induction k with
  | zero => intro idx p out hp hlen; omega
  | succ k ih =>
    intro idx p out hp hlen
    rw [List.replicate_succ, List.cons_append]
    unfold copy_literal store
    by_cases hlt : p < OUT_SIZE
    · have h1 : ('a'.toNat ≠ '%'.toNat ∧ 'a'.toNat ≠ 0) := by decide
      have h2 : ¬ 'a'.toNat = '\n'.toNat := by decide
      simp only [h1, hlt, if_true, h2, if_false]
      exact ih idx (p + 1) _ (by omega) (by omega)
    · have h1 : ('a'.toNat ≠ '%'.toNat ∧ 'a'.toNat ≠ 0) := by decide
      simp [h1, hlt]

/-- A round of the `for` loop whose literal copy faults ends with that fault. -/
theorem printf_loop_literal_fault (fuel : Nat) (st : printf_state) (e : Fault)
    (hhead : st.idx.headD 0 ≠ 0) (hp : st.p < OUT_SIZE)
    (hcopy : copy_literal st.idx st.p st.out = .error e) :
    printf_loop (fuel + 1) st = .error e := by
  have hp2 : ¬ st.p ≥ OUT_SIZE := by omega
  unfold printf_loop
  rw [if_neg hhead, if_neg hp2, hcopy]

/-- A round of the `for` loop that starts at a `%` and whose conversion faults
ends with that fault. -/
theorem printf_loop_convert_fault (fuel : Nat) (st : printf_state) (c : Nat)
    (rest : List Nat) (e : Fault)
    (hidx : st.idx = '%'.toNat :: c :: rest) (hc : c ≠ 0) (hp : st.p < OUT_SIZE)
    (hconv : convert c rest (st.p + 1) st.out st.arg = .error e) :
    printf_loop (fuel + 1) st = .error e := by
  have hp2 : ¬ st.p ≥ OUT_SIZE := by omega
  have hhead : ¬ st.idx.headD 0 = 0 := by
    rw [hidx]
    show ¬ '%'.toNat = 0
    decide
  have hcopy : copy_literal st.idx st.p st.out = .ok (st.idx, st.p, st.out) := by
    rw [hidx]
    unfold copy_literal
    rw [if_neg (by decide)]
  unfold printf_loop
  rw [if_neg hhead, if_neg hp2, hcopy]
  simp only [hidx, if_neg hc, hconv]

/-- C14, evaluated on the code: with a `%s` argument of `sizeof(_out) + 1` =
65536 bytes, and with a literal run of 65536 bytes, `_iso_alloc_printf` stores
at an index that is not below `sizeof(_out)`; the bounds check at the top of
the loop is passed with `p = 0` and neither the copy loop nor `strncpy` checks
again. -/
theorem printf_stores_past_out :
    _iso_alloc_printf (some (bytes "%s\n"))
        [Arg.str (some (List.replicate (OUT_SIZE + 1) 'a'.toNat))]
      = .error .store_out_of_bounds ∧
    _iso_alloc_printf (some (List.replicate (OUT_SIZE + 1) 'a'.toNat ++ bytes "\n")) []
      = .error .store_out_of_bounds := by
  constructor
  · have hov := strncpy_overflow (List.replicate (OUT_SIZE + 1) 'a'.toNat)
      (List.replicate OUT_SIZE 0) 1 (by decide) (by rw [List.length_replicate]; omega)
    unfold _iso_alloc_printf
    apply printf_loop_convert_fault _ _ 's'.toNat ['\n'.toNat]
    · decide
    · decide
    · decide
    · show convert 's'.toNat ['\n'.toNat] 1 (List.replicate OUT_SIZE 0)
        [Arg.str (some (List.replicate (OUT_SIZE + 1) 'a'.toNat))] = _
      unfold convert emit
      rw [if_neg (by decide), if_neg (by decide), if_neg (by decide), if_pos (by decide)]
      simp only [hov]
  · have hov := copy_literal_overflow (OUT_SIZE + 1) (bytes "\n") 0
      (List.replicate OUT_SIZE 0) (by decide) (by omega)
    unfold _iso_alloc_printf
    apply printf_loop_literal_fault
    · show (List.replicate (OUT_SIZE + 1) 'a'.toNat ++ bytes "\n").headD 0 ≠ 0
      rw [List.replicate_succ]
      decide
    · decide
    · exact hov

/-! ## Rounding down to the alignment and to a page -/

/-- Rounding up `n` to a multiple of `g` and taking `g` off gives the greatest
multiple of `g` strictly below `n`. -/
theorem round_up_sub_spec (g n : Nat) (hg : 1 ≤ g) (hn : 1 ≤ n) :
    g ≤ (n + g - 1) / g * g ∧
    ((n + g - 1) / g * g - g) % g = 0 ∧
    (n + g - 1) / g * g - g < n ∧
    (∀ m : Nat, m % g = 0 → m < n → m ≤ (n + g - 1) / g * g - g) := by
  have hq1 : 1 ≤ (n + g - 1) / g := by
    rw [Nat.le_div_iff_mul_le (by omega)]
    omega
  have hle : (n + g - 1) / g * g ≤ n + g - 1 := Nat.div_mul_le_self _ _
  have hlt : n + g - 1 < (n + g - 1) / g * g + g := by
    have := Nat.lt_div_mul_add (a := n + g - 1) (b := g) (by omega)
    omega
  have hge : g ≤ (n + g - 1) / g * g := by
    calc g = 1 * g := (Nat.one_mul g).symm
      _ ≤ (n + g - 1) / g * g := Nat.mul_le_mul_right g hq1
  have hsub : (n + g - 1) / g * g - g = ((n + g - 1) / g - 1) * g := by
    rw [Nat.sub_mul, Nat.one_mul]
  refine ⟨hge, ?_, by omega, ?_⟩
  · rw [hsub]; exact Nat.mul_mod_left _ _
  · intro m hm hmn
    obtain ⟨k, hk⟩ : ∃ k, m = k * g := ⟨m / g, by
      have := Nat.div_add_mod m g
      rw [hm, Nat.add_zero, Nat.mul_comm] at this
      exact this.symm⟩
    rw [hk, hsub]
    apply Nat.mul_le_mul_right
    by_contra hcon
    have hk1 : (n + g - 1) / g ≤ k := by omega
    have h2 : (n + g - 1) / g * g ≤ k * g := Nat.mul_le_mul_right g hk1
    omega

/-- Without wrap-around `ROUND_UP_PAGE` and `ROUND_DOWN_PAGE` are the plain
quotient formulas. -/
theorem round_page_no_wrap (g n : Nat) (hg : 1 ≤ g) (hn : 1 ≤ n) (hfit : n + g ≤ WORD) :
    ROUND_UP_PAGE g n = (n + g - 1) / g * g ∧
    ROUND_DOWN_PAGE g n = (n + g - 1) / g * g - g := by
  have hspec := round_up_sub_spec g n hg hn
  have hle : (n + g - 1) / g * g ≤ n + g - 1 := Nat.div_mul_le_self _ _
  have hin : ((n + g) % WORD + WORD - 1) % WORD = n + g - 1 := by
    unfold WORD at *
    omega
  have hup : ROUND_UP_PAGE g n = (n + g - 1) / g * g := by
    unfold ROUND_UP_PAGE
    rw [hin]
    apply Nat.mod_eq_of_lt
    unfold WORD at *
    omega
  refine ⟨hup, ?_⟩
  unfold ROUND_DOWN_PAGE
  rw [hup]
  have hge := hspec.1
  unfold WORD at *
  omega

/-- C22: for every `n` with `1 ≤ n ≤ 2 ^ 64 - 8`, `ALIGN_SZ_DOWN(n)` is
`ALIGN_SZ_UP(n) - ALIGNMENT`, the greatest multiple of 8 strictly below `n`:
`n` rounded down to a multiple of 8 when `n` is not one, and `n - 8` when it
is; and for a page size `g_page_size` of at least 1 with
`n + g_page_size ≤ 2 ^ 64`, `ROUND_DOWN_PAGE(n)` is
`ROUND_UP_PAGE(n) - g_page_size`, the greatest multiple of the page size
strictly below `n`, and with a page size of 8 it is `ALIGN_SZ_DOWN(n)`. -/
theorem align_sz_down_greatest_below (n : Nat) (h1 : 1 ≤ n) (hn : n ≤ 2 ^ 64 - 8) :
    ALIGN_SZ_DOWN n = ALIGN_SZ_UP n - ALIGNMENT ∧
    ALIGN_SZ_DOWN n % ALIGNMENT = 0 ∧
    ALIGN_SZ_DOWN n < n ∧
    (∀ m : Nat, m % ALIGNMENT = 0 → m < n → m ≤ ALIGN_SZ_DOWN n) ∧
    (n % ALIGNMENT ≠ 0 → ALIGN_SZ_DOWN n = n / ALIGNMENT * ALIGNMENT) ∧
    (n % ALIGNMENT = 0 → ALIGN_SZ_DOWN n = n - ALIGNMENT) ∧
    (∀ g_page_size : Nat, 1 ≤ g_page_size → n + g_page_size ≤ 2 ^ 64 →
      ROUND_DOWN_PAGE g_page_size n = ROUND_UP_PAGE g_page_size n - g_page_size ∧
      ROUND_DOWN_PAGE g_page_size n % g_page_size = 0 ∧
      ROUND_DOWN_PAGE g_page_size n < n ∧
      (∀ m : Nat, m % g_page_size = 0 → m < n → m ≤ ROUND_DOWN_PAGE g_page_size n)) ∧
    ROUND_DOWN_PAGE ALIGNMENT n = ALIGN_SZ_DOWN n := by
  refine ⟨?_, ?_, ?_, ?_, ?_, ?_, ?_, ?_⟩
  · unfold ALIGN_SZ_DOWN ALIGN_SZ_UP ALIGNMENT WORD; omega
  · unfold ALIGN_SZ_DOWN ALIGNMENT WORD; omega
  · unfold ALIGN_SZ_DOWN ALIGNMENT WORD; omega
  · unfold ALIGN_SZ_DOWN ALIGNMENT WORD; intro m hm hlt; omega
  · unfold ALIGN_SZ_DOWN ALIGNMENT WORD; intro h; omega
  · unfold ALIGN_SZ_DOWN ALIGNMENT WORD; intro h; omega
  · intro g hg hfit
    have hspec := round_up_sub_spec g n hg h1
    obtain ⟨hup, hdown⟩ := round_page_no_wrap g n hg h1 (by unfold WORD; exact hfit)
    rw [hdown, hup]
    exact ⟨rfl, hspec.2.1, hspec.2.2.1, hspec.2.2.2⟩
  · rfl

/-- Witness for C22: `ALIGN_SZ_DOWN(16)` is 8, `ALIGN_SZ_DOWN(13)` is 8, and
`ROUND_DOWN_PAGE(8192)` is 4096 for pages of 4096 bytes. -/
theorem align_sz_down_greatest_below_witness :
    (ALIGN_SZ_DOWN 16 = ALIGN_SZ_UP 16 - ALIGNMENT ∧ ALIGN_SZ_DOWN 16 = 16 - ALIGNMENT) ∧
    ALIGN_SZ_DOWN 13 = 13 / ALIGNMENT * ALIGNMENT ∧
    (ROUND_DOWN_PAGE 4096 8192 = ROUND_UP_PAGE 4096 8192 - 4096 ∧
      ROUND_DOWN_PAGE 4096 8192 % 4096 = 0 ∧ ROUND_DOWN_PAGE 4096 8192 < 8192) :=
  ⟨⟨(align_sz_down_greatest_below 16 (by decide) (by decide)).1,
      (align_sz_down_greatest_below 16 (by decide) (by decide)).2.2.2.2.2.1 (by decide)⟩,
    (align_sz_down_greatest_below 13 (by decide) (by decide)).2.2.2.2.1 (by decide),
    ⟨((align_sz_down_greatest_below 8192 (by decide) (by decide)).2.2.2.2.2.2.1 4096
        (by decide) (by decide)).1,
      ((align_sz_down_greatest_below 8192 (by decide) (by decide)).2.2.2.2.2.2.1 4096
        (by decide) (by decide)).2.1,
      ((align_sz_down_greatest_below 8192 (by decide) (by decide)).2.2.2.2.2.2.1 4096
        (by decide) (by decide)).2.2.1⟩⟩

/-! ## Literal text with inner newlines -/

/-- C21, evaluated on the code: for the format `a`, newline, `b`, newline,
which has no `%` and ends with a newline, the bytes written are `a`, newline,
NUL, newline: the `idx++` and `p++` that follow the copy loop, left at the
first newline, skip the `b` and one byte of the zeroed buffer; and when the
byte after the inner newline is a conversion letter, as in `a`, newline, `d`,
newline, it is taken for a conversion and an argument is consumed. -/
theorem literal_after_newline_is_dropped :
    written 5 (_iso_alloc_printf (some (bytes "a\nb\n")) [])
      = some (bytes "a\n" ++ [0] ++ bytes "\n" ++ [0]) ∧
    written (bytes "a\nb\n").length (_iso_alloc_printf (some (bytes "a\nb\n")) [])
      ≠ some (bytes "a\nb\n") ∧
    written 5 (_iso_alloc_printf (some (bytes "a\nd\n")) [Arg.int32 7])
      = some (bytes "a\n" ++ [0] ++ bytes "7\n") ∧
    _iso_alloc_printf (some (bytes "a\nd\n")) [] = .error .bad_va_arg :=
  ⟨by decide, by decide, by decide, rfl⟩

/-! ## A format of one line -/

/-- A store at the end of the text written so far, into the zero bytes that
follow it. -/
theorem store_after_text (pre : List Nat) (k c : Nat) (hp : pre.length < OUT_SIZE) :
    store (pre ++ List.replicate (k + 1) 0) pre.length c
      = .ok ((pre ++ [c]) ++ List.replicate k 0) := by
  unfold store
  rw [if_pos hp, List.set_append_right _ _ (Nat.le_refl _), Nat.sub_self,
    List.replicate_succ, List.set_cons_zero, List.append_assoc, List.singleton_append]

/-- The literal copy of a run without `%`, NUL or newline that a newline ends,
into the zero bytes after the text written so far: the run and the newline are
appended, and `idx` is left at the newline. -/
theorem copy_literal_line (body : List Nat) :
    ∀ (pre : List Nat) (k : Nat) (rest : List Nat),
      (∀ c ∈ body, c ≠ '%'.toNat ∧ c ≠ 0 ∧ c ≠ '\n'.toNat) →
      body.length + 1 ≤ k → pre.length + k ≤ OUT_SIZE →
      copy_literal (body ++ '\n'.toNat :: rest) pre.length (pre ++ List.replicate k 0)
        = .ok ('\n'.toNat :: rest, pre.length + body.length + 1,
            (pre ++ body ++ ['\n'.toNat]) ++ List.replicate (k - (body.length + 1)) 0) := by
  induction body with
  | nil =>
    intro pre k rest _ hk hfit
    obtain ⟨k', rfl⟩ : ∃ k', k = k' + 1 := ⟨k - 1, by simp at hk; omega⟩
    rw [List.nil_append]
    unfold copy_literal
    rw [if_pos (by decide), store_after_text pre k' _ (by omega)]
    simp
  | cons c t ih =>
    intro pre k rest hbody hk hfit
    simp only [List.length_cons] at hk
    obtain ⟨k', rfl⟩ : ∃ k', k = k' + 1 := ⟨k - 1, by omega⟩
    have hc := hbody c (List.mem_cons_self _ _)
    rw [List.cons_append]
    unfold copy_literal
    rw [if_pos ⟨hc.1, hc.2.1⟩, store_after_text pre k' _ (by omega)]
    simp only [if_neg hc.2.2]
    have h := ih (pre ++ [c]) k' rest (fun x hx => hbody x (List.mem_cons_of_mem _ hx))
      (by omega) (by simp only [List.length_append, List.length_singleton]; omega)
    simp only [List.length_append, List.length_singleton] at h
    have e1 : pre.length + 1 + t.length + 1 = pre.length + (c :: t).length + 1 := by
      simp only [List.length_cons]; omega
    have e2 : k' - (t.length + 1) = k' + 1 - ((c :: t).length + 1) := by
      simp only [List.length_cons]; omega
    have e3 : pre ++ [c] ++ t = pre ++ c :: t := by simp
    rw [h, e1, e2, e3]

/-- A format without `%` and NUL whose only newline is its last byte, and that
fits in `_out`, is written unchanged, in front of the zero bytes of the rest
of `_out`, whatever the arguments; none is consumed. -/
theorem literal_line_copied (body : List Nat) (arg : List Arg)
    (hbody : ∀ c ∈ body, c ≠ '%'.toNat ∧ c ≠ 0 ∧ c ≠ '\n'.toNat)
    (hfit : body.length + 1 ≤ OUT_SIZE) :
    _iso_alloc_printf (some (body ++ ['\n'.toNat])) arg
      = .ok ((body ++ ['\n'.toNat]) ++ List.replicate (OUT_SIZE - (body.length + 1)) 0) := by
  have hcopy := copy_literal_line body [] OUT_SIZE [] hbody hfit (by simp)
  simp only [List.length_nil, List.nil_append, Nat.zero_add] at hcopy
  have hhead : ¬ (body ++ ['\n'.toNat]).headD 0 = 0 := by
    cases body with
    | nil => decide
    | cons c t => exact (hbody c (List.mem_cons_self _ _)).2.1
  have hpos : ¬ (0 ≥ OUT_SIZE) := by decide
  unfold _iso_alloc_printf
  simp only [List.length_append, List.length_singleton]
  unfold printf_loop
  simp only [hhead, hpos, if_false, hcopy]

/-- The log line `hello`, newline, is written unchanged. -/
theorem literal_line_copied_example :
    written 8 (_iso_alloc_printf (some (bytes "hello\n")) [])
      = some (bytes "hello\n" ++ [0, 0]) := by
  decide

/-! ## A number formatted past the end of `_out` -/

end IsoAlloc
